import Mathlib

/-!
# Verification of the Super-Citation-Parser endnote codec

Shallow embedding of the core of `src/app.py` (and, where a claim cites it,
the earlier revision `src/App.py`): the relationship-table manager
(`RelationshipManager`), the note decode codec (`extract_endnotes_xml`),
the note encode codec (`write_updated_note`) and the search-term cleanup
(`clean_search_term`).

Python strings are modelled as `List Char` internally, wrapped as `String`
at the interfaces.  Machine-level details that the claims do not touch
(byte encodings, the XML serializer) are modelled at the parsed-tree level:
a file on disk is represented by the tree (or relationship list) it parses
to, with `none` marking an absent file and `some none` marking content that
the XML parser rejects.  Fallible Python code (uncaught exceptions) is
modelled with `Except PyErr`.
-/

namespace SCP

/-- Python exception classes that can escape the embedded functions. -/
inductive PyErr where
  | fileNotFound
  | expatError
  | indexError
  | typeError
  | valueError
  deriving DecidableEq, Repr

/-! ## Python string primitives -/

/-- Python's `\s` / `str.strip()` whitespace set (ASCII fragment). -/
def pyIsSpace (c : Char) : Bool :=
  c = ' ' || c = '\t' || c = '\n' || c = '\x0d' || c = '\x0b' || c = '\x0c'

/-- ASCII decimal digit, Python's `\d` (ASCII fragment). -/
def pyIsDigit (c : Char) : Bool :=
  '0' ≤ c && c ≤ '9'

/-- `str.strip()` on the character list. -/
def pyStripL (l : List Char) : List Char :=
  ((l.dropWhile pyIsSpace).reverse.dropWhile pyIsSpace).reverse

/-- Python `str.strip()`. -/
def pyStrip (s : String) : String :=
  String.mk (pyStripL s.data)

/-- Python `str.startswith(prefix)`. -/
def pyStartsWith (s : String) (p : String) : Bool :=
  p.data.isPrefixOf s.data

/-- Python `str.endswith(suffix)`. -/
def pyEndsWith (s : String) (p : String) : Bool :=
  p.data.isSuffixOf s.data

/-- Numeric value of a list of decimal digit characters (most significant first). -/
def digitsVal (l : List Char) : Nat :=
  l.foldl (fun a c => a * 10 + (c.toNat - 48)) 0

/-! ## `clean_search_term` (src/app.py lines 139-149)

The three `re.sub` calls are embedded as anchored strips.

* `re.sub(r'^\s*\d+\.?\s*', '', text)` matches only at the start of the
  string; the greedy pieces are character-class disjoint, so the match is
  the maximal whitespace run, a nonempty digit run, an optional period and
  a maximal whitespace run.
* The other two patterns are `$`-anchored; `re.sub` removes the suffix
  starting at the leftmost position whose whole remaining suffix matches.
-/

/-- `re.sub(r'^\s*\d+\.?\s*', '', text)`: strip a leading enumeration prefix. -/
def stripLeadingEnum (l : List Char) : List Char :=
  let rest := l.dropWhile pyIsSpace
  let ds := rest.takeWhile pyIsDigit
  let rest2 := rest.dropWhile pyIsDigit
  if ds.isEmpty then l
  else
    let rest3 := match rest2 with
      | '.' :: r => r
      | r => r
    rest3.dropWhile pyIsSpace

/-- Does the whole suffix match `,?\s*pp?\.?\s*\d+(-\d+)?\.?$`
(the page-range pattern of the second `re.sub`)?  The pattern's pieces are
character-class disjoint, so greedy matching piece by piece is complete. -/
def suffixMatchPages (l : List Char) : Bool :=
  let l1 := match l with
    | ',' :: r => r
    | r => r
  let l2 := l1.dropWhile pyIsSpace
  match l2 with
  | 'p' :: r =>
    let r1 := match r with
      | 'p' :: r' => r'
      | r' => r'
    let r2 := match r1 with
      | '.' :: r' => r'
      | r' => r'
    let r3 := r2.dropWhile pyIsSpace
    let ds := r3.takeWhile pyIsDigit
    let r4 := r3.dropWhile pyIsDigit
    if ds.isEmpty then false
    else
      let r5 := match r4 with
        | '-' :: r' =>
          let ds2 := r'.takeWhile pyIsDigit
          if ds2.isEmpty then r4 else r'.dropWhile pyIsDigit
        | r' => r'
      match r5 with
      | [] => true
      | ['.'] => true
      | _ => false
  | _ => false

/-- Does the whole suffix match `,?\s*\d+\.?$` (the trailing-number pattern
of the third `re.sub`)? -/
def suffixMatchTrailNum (l : List Char) : Bool :=
  let l1 := match l with
    | ',' :: r => r
    | r => r
  let l2 := l1.dropWhile pyIsSpace
  let ds := l2.takeWhile pyIsDigit
  let r := l2.dropWhile pyIsDigit
  if ds.isEmpty then false
  else
    match r with
    | [] => true
    | ['.'] => true
    | _ => false

/-- Remove the suffix starting at the leftmost position whose remaining
suffix satisfies `m` (the behaviour of `re.sub` with a `$`-anchored pattern
that cannot match the empty string). -/
def stripSuffixMatch (m : List Char → Bool) : List Char → List Char
  | [] => []
  | c :: cs => if m (c :: cs) then [] else c :: stripSuffixMatch m cs

/-- `clean_search_term` from `src/app.py` (lines 139-149): URL-looking
input passes through unchanged, otherwise the three citation strips and a
final `strip()` are applied. -/
def clean_search_term (text : String) : String :=
  if pyStartsWith text "http://" || pyStartsWith text "https://" ||
      pyStartsWith text "www." then
    text
  else
    let t1 := stripLeadingEnum text.data
    let t2 := stripSuffixMatch suffixMatchPages t1
    let t3 := stripSuffixMatch suffixMatchTrailNum t2
    String.mk (pyStripL t3)

/-! ## Decimal formatting of integers (Python f-string `f"rId{n}"`) -/

/-- One decimal digit character. -/
def digitChar : Nat → Char
  | 0 => '0' | 1 => '1' | 2 => '2' | 3 => '3' | 4 => '4'
  | 5 => '5' | 6 => '6' | 7 => '7' | 8 => '8' | _ => '9'

/-- Fuel-driven decimal rendering (most significant digit first). -/
def natDecAux : Nat → Nat → List Char
  | 0, _ => []
  | f + 1, n =>
    if n < 10 then [digitChar n]
    else natDecAux f (n / 10) ++ [digitChar (n % 10)]

/-- Decimal rendering of a natural number, Python `str(n)` for `n ≥ 0`. -/
def natDec (n : Nat) : List Char := natDecAux (n + 1) n

/-- `re.search(r'\d+', s)`: value of the first maximal decimal-digit run. -/
def firstDigitRun : List Char → Option Nat
  | [] => none
  | c :: cs =>
    if pyIsDigit c then some (digitsVal (c :: cs.takeWhile pyIsDigit))
    else firstDigitRun cs

/-! ## RelationshipManager (src/app.py lines 61-131)

The manager's state is its `relationships` list and `next_id` counter,
plus the parsed contents of `word/_rels/endnotes.xml.rels` (`relsFile`,
`none` when the file does not exist).  `_save` serializes exactly the
`relationships` list (a `TargetMode` of `""` is not emitted as an
attribute, and reading a missing attribute yields `""` again, so the
parsed-entry representation is stable under save/load). -/

/-- One `<Relationship>` entry: attributes `Id`, `Type`, `Target`,
`TargetMode` (`""` when absent). -/
structure RelEntry where
  rId : String
  relType : String
  target : String
  targetMode : String
  deriving DecidableEq, Repr

/-- The hyperlink relationship type URI used by `get_or_create_hyperlink`. -/
def hyperlinkType : String :=
  "http://schemas.openxmlformats.org/officeDocument/2006/relationships/hyperlink"

/-- State of a `RelationshipManager` plus the relationship file it persists to. -/
structure RelState where
  relationships : List RelEntry
  next_id : Nat
  relsFile : Option (List RelEntry)
  deriving DecidableEq, Repr

/-- `RelationshipManager._load`: read the entries of the relationship file
when it exists; each entry with a digit run in its `Id` bumps `next_id` to
`max(next_id, value + 1)`, starting from `1`. -/
def RelationshipManager.load (file : Option (List RelEntry)) : RelState :=
  match file with
  | none => ⟨[], 1, none⟩
  | some es =>
    ⟨es,
     es.foldl (fun acc e =>
       match firstDigitRun e.rId.data with
       | some k => max acc (k + 1)
       | none => acc) 1,
     some es⟩

/-- The scan condition of `get_or_create_hyperlink`:
`rel['Target'] == url and rel['Type'].endswith('/hyperlink')`. -/
def relMatches (url : String) (rel : RelEntry) : Bool :=
  rel.target = url && pyEndsWith rel.relType "/hyperlink"

/-- `RelationshipManager.get_or_create_hyperlink`: return the `Id` of the
first hyperlink-type entry whose `Target` equals `url` exactly; otherwise
mint `rId{next_id}`, increment the counter, append the new entry and
persist the whole table (`_save`). -/
def RelState.get_or_create_hyperlink (rs : RelState) (url : String) :
    String × RelState :=
  match rs.relationships.find? (relMatches url) with
  | some rel => (rel.rId, rs)
  | none =>
    let new_id := "rId" ++ String.mk (natDec rs.next_id)
    let e : RelEntry := ⟨new_id, hyperlinkType, url, "External"⟩
    let rels' := rs.relationships ++ [e]
    (new_id, ⟨rels', rs.next_id + 1, some rels'⟩)

/-- `RelationshipManager._save`: rewrite the relationship file with the
current table. -/
def RelState.save (rs : RelState) : RelState :=
  { rs with relsFile := some rs.relationships }

namespace OldApp

/-- `clean_search_term` from the earlier revision `src/App.py`
(lines 295-299): identical strips, but with no URL check. -/
def clean_search_term (text : String) : String :=
  let t1 := SCP.stripLeadingEnum text.data
  let t2 := SCP.stripSuffixMatch SCP.suffixMatchPages t1
  let t3 := SCP.stripSuffixMatch SCP.suffixMatchTrailNum t2
  String.mk (SCP.pyStripL t3)

end OldApp

/-- Spec-side notion for C4: the largest integer suffix among the existing
identifiers (0 when there are none), reading each identifier's digit run. -/
def maxSuffix (es : List RelEntry) : Nat :=
  (es.filterMap (fun e => firstDigitRun e.rId.data)).foldl max 0

/-! ## XML document model

`minidom` trees as seen by the two codecs: element nodes with a tag, an
attribute list and ordered children, and text nodes.  `getAttribute`
returns `""` for a missing attribute; `getElementsByTagName` returns the
element descendants with the given tag in document (preorder) order,
excluding the node itself. -/

inductive XmlNode where
  | elem (tag : String) (attrs : List (String × String)) (children : List XmlNode)
  | text (s : String)

/-- `node.getAttribute(name)` (empty string when absent). -/
def XmlNode.getAttr (n : XmlNode) (name : String) : String :=
  match n with
  | .elem _ attrs _ => (((attrs.find? (fun a => a.1 = name))).map Prod.snd).getD ""
  | .text _ => ""

/-- Direct children (`childNodes` restricted to our two node kinds). -/
def XmlNode.children : XmlNode → List XmlNode
  | .elem _ _ cs => cs
  | .text _ => []

mutual

/-- `node.getElementsByTagName(tag)`: matching element descendants in
document order (preorder), excluding the node itself. -/
def XmlNode.descByTag (tag : String) : XmlNode → List XmlNode
  | .text _ => []
  | .elem _ _ cs => XmlNode.descListByTag tag cs

/-- Descendants with the given tag of a list of sibling nodes. -/
def XmlNode.descListByTag (tag : String) : List XmlNode → List XmlNode
  | [] => []
  | c :: cs =>
    (match c with
     | .elem t _ _ => if t = tag then [c] else []
     | .text _ => []) ++ XmlNode.descByTag tag c ++ XmlNode.descListByTag tag cs

end

/-! ## Note codec — decode (`extract_endnotes_xml`, src/app.py lines 286-356) -/

/-- `"".join(t.firstChild.nodeValue for t in ... if t.firstChild)` over a
list of `w:t` elements: a `w:t` without children is skipped; a first child
that is an element has `nodeValue` `None`, making `join` raise
`TypeError`. -/
def joinTexts : List XmlNode → Except PyErr (List Char)
  | [] => .ok []
  | t :: rest =>
    match t with
    | .elem _ _ [] => joinTexts rest
    | .elem _ _ (.text s :: _) => (joinTexts rest).map (fun r => s.data ++ r)
    | .elem _ _ (.elem _ _ _ :: _) => .error .typeError
    | .text _ => joinTexts rest

/-- The text of one run: join of the `nodeValue`s of the `w:t`
descendants that have a first child. -/
def runText (r : XmlNode) : Except PyErr String :=
  (joinTexts (r.descByTag "w:t")).map String.mk

/-- The decoder's hyperlink lookup: `relationships[Id] = Target` for
hyperlink-type entries, with Python-dict last-wins duplicate semantics. -/
def buildRelDict (es : List RelEntry) : List (String × String) :=
  (es.filter (fun e => pyEndsWith e.relType "/hyperlink")).map
    (fun e => (e.rId, e.target))

/-- `d.get(k, dflt)` on the association list built by `buildRelDict`
(later entries shadow earlier ones, as in a Python dict). -/
def dictGet (d : List (String × String)) (k : String) (dflt : String) : String :=
  match d.reverse.find? (fun kv => kv.1 = k) with
  | some kv => kv.2
  | none => dflt

/-- One html/full-text contribution of a direct child of the note's first
paragraph: a hyperlink (`<a href="URL">text</a>` from the texts of its
nested runs) or one run (plain or italic). -/
inductive ChildEmit where
  | link (url : String) (runTexts : List String)
  | run (text : String) (italic : Bool)
  deriving DecidableEq, Repr

/-- The contribution appended to `html_parts`. -/
def ChildEmit.render : ChildEmit → List Char
  | .link url ts =>
    "<a href=\"".data ++ url.data ++ "\">".data ++
      ((ts.map String.data).flatten) ++ "</a>".data
  | .run s i => if i then "<em>".data ++ s.data ++ "</em>".data else s.data

/-- The contributions appended to `full_text_parts` (one per nested run
for a hyperlink, the run text otherwise). -/
def ChildEmit.fullChars : ChildEmit → List Char
  | .link _ ts => (ts.map String.data).flatten
  | .run s _ => s.data

/-- The visible text of the span this child contributes (spec's notion:
the simplified markup with the tag wrappers removed). -/
def ChildEmit.spanText : ChildEmit → String
  | .link _ ts => String.mk ((ts.map String.data).flatten)
  | .run s _ => s

/-- Texts of a list of runs (the loop over a hyperlink's nested `w:r`s). -/
def runTexts : List XmlNode → Except PyErr (List String)
  | [] => .ok []
  | r :: rest =>
    match runText r with
    | .error e => .error e
    | .ok t =>
      match runTexts rest with
      | .error e => .error e
      | .ok ts => .ok (t :: ts)

/-- The italics test of the decoder: first `w:rPr` descendant, if any,
queried for a `w:i` descendant. -/
def runItalic (node : XmlNode) : Bool :=
  match node.descByTag "w:rPr" with
  | [] => false
  | rPr :: _ => !(rPr.descByTag "w:i").isEmpty

/-- The decoder's walk over the direct children of the first paragraph
(src/app.py lines 315-350): hyperlink wrappers emit one link span from the
texts of their nested runs; runs carrying the endnote marker or an empty
text are skipped; other runs emit a plain or italic span. -/
def processChildren (rd : List (String × String)) :
    List XmlNode → Except PyErr (List ChildEmit)
  | [] => .ok []
  | node :: rest =>
    match node with
    | .text _ => processChildren rd rest
    | .elem tag _ _ =>
      if tag = "w:hyperlink" then
        match runTexts (node.descByTag "w:r") with
        | .error e => .error e
        | .ok ts =>
          match processChildren rd rest with
          | .error e => .error e
          | .ok es => .ok (.link (dictGet rd (node.getAttr "r:id") "#") ts :: es)
      else if tag = "w:r" then
        if (node.descByTag "w:endnoteRef").isEmpty then
          match runText node with
          | .error e => .error e
          | .ok t =>
            match processChildren rd rest with
            | .error e => .error e
            | .ok es =>
              if t = "" then .ok es
              else .ok (.run t (runItalic node) :: es)
        else processChildren rd rest
      else processChildren rd rest

/-- One decoded note: `{'id': ..., 'html': ..., 'clean_term': ...}`. -/
structure NoteRec where
  id : String
  html : String
  clean_term : String
  deriving DecidableEq, Repr

/-- Assembly of one decoded note from its id and child emissions:
`html` is the stripped join of the html parts, `clean_term` the
search-term cleanup of the stripped join of the full-text parts. -/
def mkNote (en_id : String) (emits : List ChildEmit) : NoteRec :=
  ⟨en_id, String.mk (pyStripL (emits.flatMap ChildEmit.render)),
   clean_search_term (String.mk (pyStripL (emits.flatMap ChildEmit.fullChars)))⟩

/-- Decode of one endnote element with id `en_id`: index the first `w:p`
descendant (`IndexError` when there is none) and walk its direct
children. -/
def decodeNote (rd : List (String × String)) (en_id : String) (en : XmlNode) :
    Except PyErr NoteRec :=
  match en.descByTag "w:p" with
  | [] => .error .indexError
  | p :: _ =>
    match processChildren rd p.children with
    | .error e => .error e
    | .ok emits => .ok (mkNote en_id emits)

/-- The decode loop over all `w:endnote` elements: notes with id `""`,
`"-1"` or `"0"` are discarded. -/
def extractLoop (rd : List (String × String)) :
    List XmlNode → Except PyErr (List NoteRec)
  | [] => .ok []
  | en :: rest =>
    if en.getAttr "w:id" ≠ "" ∧ en.getAttr "w:id" ≠ "-1" ∧
        en.getAttr "w:id" ≠ "0" then
      match decodeNote rd (en.getAttr "w:id") en with
      | .error e => .error e
      | .ok n =>
        match extractLoop rd rest with
        | .error e => .error e
        | .ok ns => .ok (n :: ns)
    else
      extractLoop rd rest

/-- Python `int(s)` on the digit body (ASCII digits, single underscores
allowed between digits as in PEP 515). -/
def pyIntDigitsGo (acc : Nat) : List Char → Option Nat
  | [] => some acc
  | '_' :: d :: r =>
    if pyIsDigit d then pyIntDigitsGo (acc * 10 + (d.toNat - 48)) r else none
  | '_' :: [] => none
  | d :: r =>
    if pyIsDigit d then pyIntDigitsGo (acc * 10 + (d.toNat - 48)) r else none

/-- Digit-sequence parse for `int()`. -/
def pyIntDigits : List Char → Option Nat
  | [] => none
  | c :: cs =>
    if pyIsDigit c then pyIntDigitsGo (c.toNat - 48) cs else none

/-- Python `int(s)`: surrounding whitespace stripped, optional sign,
decimal digits; `None` models `ValueError`. -/
def pyInt (s : String) : Option Int :=
  match pyStripL s.data with
  | '-' :: r => (pyIntDigits r).map (fun n => -(n : Int))
  | '+' :: r => (pyIntDigits r).map (fun n => (n : Int))
  | r => (pyIntDigits r).map (fun n => (n : Int))

/-- Stable ascending insertion (equal keys keep the incoming element
first, matching Python's stable `sorted`). -/
def insertAsc (x : Int × NoteRec) : List (Int × NoteRec) → List (Int × NoteRec)
  | [] => [x]
  | y :: ys => if x.1 ≤ y.1 then x :: y :: ys else y :: insertAsc x ys

/-- Stable ascending insertion sort (extensionally Python's `sorted`). -/
def insSortAsc : List (Int × NoteRec) → List (Int × NoteRec)
  | [] => []
  | x :: xs => insertAsc x (insSortAsc xs)

/-- Key computation for `sorted(notes, key=lambda x: int(x['id']))`: a
non-numeric id raises `ValueError`. -/
def keyNotes : List NoteRec → Except PyErr (List (Int × NoteRec))
  | [] => .ok []
  | n :: ns =>
    match pyInt n.id with
    | none => .error .valueError
    | some k =>
      match keyNotes ns with
      | .error e => .error e
      | .ok ks => .ok ((k, n) :: ks)

/-- `sorted(notes, key=lambda x: int(x['id']))`. -/
def sortNotes (notes : List NoteRec) : Except PyErr (List NoteRec) :=
  match keyNotes notes with
  | .error e => .error e
  | .ok keyed => .ok ((insSortAsc keyed).map Prod.snd)

/-- Decode over a parsed tree and hyperlink lookup. -/
def extractCore (dom : XmlNode) (rd : List (String × String)) :
    Except PyErr (List NoteRec) :=
  match extractLoop rd (dom.descByTag "w:endnote") with
  | .error e => .error e
  | .ok notes => sortNotes notes

/-- One user session's package state: the recorded notes-part path and the
parsed contents of the two files (`none` = file absent, `some none` = the
XML parser rejects the content, `some (some _)` = parsed). -/
structure UserData where
  endnotes_file : String
  endnotes : Option (Option XmlNode)
  rels : Option (Option (List RelEntry))

/-- `extract_endnotes_xml(user_data)` (src/app.py lines 286-356): an
absent `user_data` or falsy notes-part path yields `[]`; otherwise the
notes part is opened and parsed (`FileNotFoundError` when the path has no
file, `ExpatError` when the content is malformed), the hyperlink lookup is
built from the relationship file when that exists, and the decode loop
runs, returning the notes sorted by numeric id. -/
def extract_endnotes_xml (ud : Option UserData) : Except PyErr (List NoteRec) :=
  match ud with
  | none => .ok []
  | some u =>
    if u.endnotes_file = "" then .ok []
    else
      match u.endnotes with
      | none => .error .fileNotFound
      | some none => .error .expatError
      | some (some dom) =>
        match u.rels with
        | none => extractCore dom []
        | some none => .error .expatError
        | some (some es) => extractCore dom (buildRelDict es)

/-! ## Note codec — encode (`write_updated_note`, src/app.py lines 358-523)

### Tokenizer

`re.split(r'(<a href="[^"]+">.*?</a>|<em>.*?</em>)', html_content)` is
embedded as a left-to-right scan.  At each position the alternation is
tried in order; Python's regex semantics make both alternatives
deterministic here:

* `<a href="[^"]+">.*?</a>`: after the literal `<a href="`, the greedy
  `[^"]+` can only stop immediately before the first `"`, which must be
  followed by `>`; the lazy `.*?` then ends at the first `</a>`.
* `<em>.*?</em>`: the lazy body ends at the first `</em>`.

`re.split` with one capture group interleaves the unmatched gaps with the
matched tokens (including empty gaps), which the later loop skips. -/

/-- First occurrence split: `s = pre ++ pat ++ post` with `pre` minimal. -/
def splitFirst (pat : List Char) : List Char → Option (List Char × List Char)
  | [] => if pat.isPrefixOf ([] : List Char) then some ([], []) else none
  | c :: cs =>
    if pat.isPrefixOf (c :: cs) then some ([], (c :: cs).drop pat.length)
    else (splitFirst pat cs).map (fun p => (c :: p.1, p.2))

/-- Match of `<a href="([^"]+)">(.*?)</a>` at the start of the input
(Python `re.match`, trailing junk allowed): returns the captured URL,
captured text, and the rest after `</a>`.  The character class `[^"]+`
crosses newlines, but the lazy `.*?` body cannot (no `re.DOTALL`): when a
newline precedes the first `</a>` the pattern fails. -/
def matchA (s : List Char) : Option (List Char × List Char × List Char) :=
  if "<a href=\"".data.isPrefixOf s then
    match splitFirst ['"'] (s.drop 9) with
    | none => none
    | some (u, s2) =>
      if u.isEmpty then none
      else
        match s2 with
        | c :: s3 =>
          if c = '>' then
            match splitFirst "</a>".data s3 with
            | none => none
            | some (x, rest) =>
              if '\n' ∈ x then none else some (u, x, rest)
          else none
        | [] => none
  else none

/-- Match of `<em>(.*?)</em>` at the start of the input.  The lazy `.*?`
body cannot cross a newline (no `re.DOTALL`): when a newline precedes the
first `</em>` the pattern fails. -/
def matchE (s : List Char) : Option (List Char × List Char) :=
  if "<em>".data.isPrefixOf s then
    match splitFirst "</em>".data (s.drop 4) with
    | none => none
    | some (x, rest) => if '\n' ∈ x then none else some (x, rest)
  else none

/-- The matched characters of a hyperlink token. -/
def tokA (u x : List Char) : List Char :=
  "<a href=\"".data ++ u ++ "\">".data ++ x ++ "</a>".data

/-- The matched characters of an emphasis token. -/
def tokE (x : List Char) : List Char :=
  "<em>".data ++ x ++ "</em>".data

/-- Try the split pattern's alternation at the current position. -/
def tryTok (s : List Char) : Option (List Char × List Char) :=
  match matchA s with
  | some (u, x, rest) => some (tokA u x, rest)
  | none =>
    match matchE s with
    | some (x, rest) => some (tokE x, rest)
    | none => none

/-- The split scan (fuel-driven; `fuel = length` always suffices since
every step consumes at least one character). -/
def splitCapAux : Nat → List Char → List Char → List (List Char)
  | _, [], gap => [gap.reverse]
  | 0, s, gap => [gap.reverse ++ s]
  | f + 1, c :: cs, gap =>
    match tryTok (c :: cs) with
    | some (tok, rest) => gap.reverse :: tok :: splitCapAux f rest []
    | none => splitCapAux f cs (c :: gap)

/-- `re.split(r'(<a href="[^"]+">.*?</a>|<em>.*?</em>)', l)`. -/
def pySplitCap (l : List Char) : List (List Char) :=
  splitCapAux l.length l []

/-! ### Entity unescaping -/

/-- `token.replace('&nbsp;', ' ')`: leftmost, non-overlapping. -/
def replNbsp : List Char → List Char
  | '&' :: 'n' :: 'b' :: 's' :: 'p' :: ';' :: rest => ' ' :: replNbsp rest
  | c :: rest => c :: replNbsp rest
  | [] => []

/-- `token.replace('&amp;', '&')`: leftmost, non-overlapping. -/
def replAmp : List Char → List Char
  | '&' :: 'a' :: 'm' :: 'p' :: ';' :: rest => '&' :: replAmp rest
  | c :: rest => c :: replAmp rest
  | [] => []

/-- `token.replace('&nbsp;', ' ').replace('&amp;', '&')`. -/
def pyUnescape (l : List Char) : List Char := replAmp (replNbsp l)

/-! ### Built nodes -/

/-- `<w:pPr><w:pStyle w:val="EndnoteText"/></w:pPr>` (also the block
inserted into unstyled additional paragraphs). -/
def pPrEndnoteText : XmlNode :=
  .elem "w:pPr" [] [.elem "w:pStyle" [("w:val", "EndnoteText")] []]

/-- The run holding the preserved single space after the note marker. -/
def spaceRun : XmlNode :=
  .elem "w:r" [] [.elem "w:t" [("xml:space", "preserve")] [.text " "]]

/-- The `w:rPr` created for a reference run lacking one. -/
def newRefRPr : XmlNode :=
  .elem "w:rPr" [] [.elem "w:rStyle" [("w:val", "EndnoteReference")] []]

/-- The `w:rStyle` appended to an existing unstyled reference `w:rPr`. -/
def refRStyle : XmlNode :=
  .elem "w:rStyle" [("w:val", "EndnoteReference")] []

/-- The hyperlink wrapper built for a matched hyperlink token: one run
with `Hyperlink` style, explicit blue colour and single underline. -/
def hyperlinkNode (rid : String) (txt : List Char) : XmlNode :=
  .elem "w:hyperlink" [("r:id", rid)]
    [.elem "w:r" []
      [.elem "w:rPr" []
        [.elem "w:rStyle" [("w:val", "Hyperlink")] [],
         .elem "w:color" [("w:val", "0000FF")] [],
         .elem "w:u" [("w:val", "single")] []],
       .elem "w:t" [] [.text (String.mk txt)]]]

/-- `text_content.startswith(' ') or text_content.endswith(' ')`. -/
def spacePreserve (content : List Char) : Bool :=
  content.head? = some ' ' || content.getLast? = some ' '

/-- The run built for a plain or emphasis token: forced Times New Roman,
optional italic, `xml:space="preserve"` when the text starts or ends with
a space. -/
def textRun (content : List Char) (ital : Bool) : XmlNode :=
  .elem "w:r" []
    [.elem "w:rPr" []
      ([.elem "w:rFonts"
          [("w:ascii", "Times New Roman"), ("w:hAnsi", "Times New Roman")] []] ++
        (if ital then [.elem "w:i" [] []] else [])),
     .elem "w:t" (if spacePreserve content then [("xml:space", "preserve")] else [])
       [.text (String.mk content)]]

/-- Python `token[4:-5]`. -/
def pySlice4m5 (l : List Char) : List Char := (l.drop 4).take (l.length - 9)

/-! ### Token loop -/

/-- The token loop of `write_updated_note` (lines 426-498): skip empty
tokens, unescape, then append a hyperlink wrapper (resolving/creating its
relationship and saving the file), an italic run, or a plain run.  A token
that begins `<a href=` but fails the exact hyperlink pattern falls through
to the plain-run case with its literal (unescaped) text. -/
def processTokens (rs : RelState) : List (List Char) → List XmlNode × RelState
  | [] => ([], rs)
  | t :: rest =>
    if t.isEmpty then processTokens rs rest
    else
      let u := pyUnescape t
      if "<a href=".data.isPrefixOf u then
        match matchA u with
        | some (url, txt, _) =>
          let (rid, rs1) := rs.get_or_create_hyperlink (String.mk url)
          let (ns, rs3) := processTokens rs1.save rest
          (hyperlinkNode rid txt :: ns, rs3)
        | none =>
          let content := if "<em>".data.isPrefixOf u then pySlice4m5 u else u
          let (ns, rs') := processTokens rs rest
          (textRun content ("<em>".data.isPrefixOf u) :: ns, rs')
      else
        let content := if "<em>".data.isPrefixOf u then pySlice4m5 u else u
        let (ns, rs') := processTokens rs rest
        (textRun content ("<em>".data.isPrefixOf u) :: ns, rs')

/-! ### Paragraph rebuild and endnote rewrite -/

mutual

/-- Append `refRStyle` to the first `w:rPr` in document order within this
node (the node itself included); the flag reports whether one was found. -/
def appendStyleNode : XmlNode → XmlNode × Bool
  | .text s => (.text s, false)
  | .elem t a ch =>
    if t = "w:rPr" then (.elem t a (ch ++ [refRStyle]), true)
    else
      match appendStyleList ch with
      | (ch', found) => (.elem t a ch', found)

/-- Append `refRStyle` to the first `w:rPr` in document order among these
nodes and their subtrees (the `rPr_elements[0].appendChild` of the
source); the flag reports whether it was found. -/
def appendStyleList : List XmlNode → List XmlNode × Bool
  | [] => ([], false)
  | c :: cs =>
    match appendStyleNode c with
    | (c', true) => (c' :: cs, true)
    | (_, false) =>
      match appendStyleList cs with
      | (cs', found) => (c :: cs', found)

end

/-- Restyle the detached reference run (lines 393-411): give it a fresh
`w:rPr` with `EndnoteReference` style when it has none; if it has `w:rPr`
descendants but none holds a `w:rStyle`, append the style to the first. -/
def restyleRef (r : XmlNode) : XmlNode :=
  match r.descByTag "w:rPr" with
  | [] =>
    match r with
    | .elem t a cs => .elem t a (newRefRPr :: cs)
    | .text s => .text s
  | rPrs =>
    if rPrs.any (fun rPr => !(rPr.descByTag "w:rStyle").isEmpty) then r
    else
      match r with
      | .elem t a cs => .elem t a (appendStyleList cs).1
      | .text s => .text s

/-- Rebuild of the note's first paragraph (lines 370-498): find the
reference run (first run with a `w:endnoteRef` descendant), clear the
children, re-add the `EndnoteText` paragraph properties, the restyled
reference run and the preserved space (when a reference run exists), then
append the nodes built from the tokenized markup. -/
def rebuildPara (p : XmlNode) (html : String) (rs : RelState) :
    XmlNode × RelState :=
  let prefixNodes :=
    match (p.descByTag "w:r").find?
        (fun r => !(r.descByTag "w:endnoteRef").isEmpty) with
    | some r => [pPrEndnoteText, restyleRef r, spaceRun]
    | none => [pPrEndnoteText]
  let res := processTokens rs (pySplitCap html.data)
  (match p with
   | .elem t a _ => .elem t a (prefixNodes ++ res.1)
   | .text s => .text s,
   res.2)

/-- Does this paragraph already carry a style
(`para.getElementsByTagName('w:pPr')` holding a `w:pStyle`)? -/
def hasPStyle (para : XmlNode) : Bool :=
  (para.descByTag "w:pPr").any (fun pPr => !(pPr.descByTag "w:pStyle").isEmpty)

mutual

/-- The style pass over the paragraphs after the first (lines 500-520):
each `w:p` lacking a styled `w:pPr` gets the `EndnoteText` block inserted
first; the snapshot loop visits nested paragraphs too, each checked
against its own (not-yet-restyled) subtree, which this top-down walk
reproduces. -/
def styleWalkNode : XmlNode → XmlNode
  | .text s => .text s
  | .elem t a cs =>
    if t = "w:p" then
      if hasPStyle (.elem t a cs) then .elem t a (styleWalkList cs)
      else .elem t a (pPrEndnoteText :: styleWalkList cs)
    else .elem t a (styleWalkList cs)

/-- `styleWalkNode` over sibling lists. -/
def styleWalkList : List XmlNode → List XmlNode
  | [] => []
  | c :: cs => styleWalkNode c :: styleWalkList cs

end

mutual

/-- Replace the first `w:p` (in document order) by the rebuilt paragraph
and run the style pass on every later paragraph.  This is the functional
counterpart of the in-place mutation over the `getElementsByTagName('w:p')`
snapshot; the two coincide on notes parts (paragraph wrappers are not
nested inside other paragraphs' positions that the rebuild detaches —
paragraphs nested under the first are detached by the clear in both). -/
def encParaNode (pNew : XmlNode) : XmlNode → Bool → XmlNode × Bool
  | .text s, found => (.text s, found)
  | .elem t a ch, found =>
    if t = "w:p" then
      if found then (styleWalkNode (.elem t a ch), true)
      else (pNew, true)
    else
      match encParaList pNew ch found with
      | (ch', found') => (.elem t a ch', found')

/-- `encParaNode` over sibling lists, threading the found flag. -/
def encParaList (pNew : XmlNode) : List XmlNode → Bool → List XmlNode × Bool
  | [], found => ([], found)
  | c :: cs, found =>
    match encParaNode pNew c found with
    | (c', found') =>
      match encParaList pNew cs found' with
      | (cs', found'') => (c' :: cs', found'')

end

/-- Rewrite of one matching endnote element: no `w:p` descendant means
nothing is touched; otherwise the first paragraph is rebuilt from the
markup and the later paragraphs are style-checked. -/
def rewriteEndnote (en : XmlNode) (html : String) (rs : RelState) :
    XmlNode × RelState :=
  match en.descByTag "w:p" with
  | [] => (en, rs)
  | p :: _ =>
    match rebuildPara p html rs with
    | (p', rs') =>
      match en with
      | .elem t a cs =>
        match encParaList p' cs false with
        | (cs', _) => (.elem t a cs', rs')
      | .text s => (.text s, rs)

mutual

/-- The loop `for en in dom.getElementsByTagName('w:endnote')` with the
id test, as a top-down rewrite from the document node: every `w:endnote`
element whose `w:id` equals the requested id is rewritten.  (Equivalent to
the snapshot loop whenever `w:endnote` elements are not nested inside one
another, which the notes-part grammar guarantees.) -/
def encodeNode (nid : String) (html : String) :
    XmlNode → RelState → XmlNode × RelState
  | .text s, rs => (.text s, rs)
  | .elem t a cs, rs =>
    if t = "w:endnote" ∧ (XmlNode.elem t a cs).getAttr "w:id" = nid then
      rewriteEndnote (.elem t a cs) html rs
    else
      match encodeList nid html cs rs with
      | (cs', rs') => (.elem t a cs', rs')

/-- `encodeNode` over sibling lists, threading the relationship state. -/
def encodeList (nid : String) (html : String) :
    List XmlNode → RelState → List XmlNode × RelState
  | [], rs => ([], rs)
  | c :: cs, rs =>
    match encodeNode nid html c rs with
    | (c', rs1) =>
      match encodeList nid html cs rs1 with
      | (cs', rs2) => (c' :: cs', rs2)

end

/-- Tag of a node (`""` for text nodes). -/
def XmlNode.tagName : XmlNode → String
  | .elem t _ _ => t
  | .text _ => ""

/-! ### Conditions of the amended round-trip claim -/

/-- No effective `&nbsp;`/`&amp;` occurrence: the encoder's entity
unescaping leaves the text unchanged. -/
def noEnt (t : List Char) : Prop :=
  pyUnescape t = t

/-- A token beginning `<em>` is a complete emphasis token with nonempty
body (anything else is mangled by the `token[4:-5]` slice or dropped as an
empty run). -/
def emTokOk (t : List Char) : Bool :=
  match matchE t with
  | some (x, rest) => rest.isEmpty && !x.isEmpty
  | none => false

/-- The markup-side safety condition of the amended round-trip claim:
every token of the split holds no HTML entity and, when it begins `<em>`,
is a complete nonempty emphasis token. -/
def tokenSafe (h : String) : Prop :=
  ∀ t ∈ pySplitCap h.data, noEnt t ∧
    ("<em>".data.isPrefixOf t = true → emTokOk t = true)

/-- Classification of a token as the encoder's loop sees it: empty,
an exact hyperlink token, an exact nonempty emphasis token, or literal
text matching neither pattern and not beginning `<em>`. -/
def TokOk (t : List Char) : Prop :=
  t = [] ∨
  (noEnt t ∧
    ((∃ u x, t = tokA u x ∧ matchA t = some (u, x, [])) ∨
     (∃ x, x ≠ [] ∧ t = tokE x ∧ matchE t = some (x, []) ∧ matchA t = none) ∨
     (matchA t = none ∧ matchE t = none ∧
       "<em>".data.isPrefixOf t = false)))

/-- `write_updated_note(user_data, note_id, html_content)` (lines
358-523): a missing `user_data` does nothing; the notes part is parsed
(propagating `FileNotFoundError` / `ExpatError`), the relationship
manager loads its file (propagating a parse error), every matching
endnote is rewritten, and the updated notes tree is written back.  The
result carries the two files' new parsed contents. -/
def write_updated_note (ud : Option UserData) (note_id : String)
    (html : String) : Except PyErr (Option UserData) :=
  match ud with
  | none => .ok none
  | some u =>
    match u.endnotes with
    | none => .error .fileNotFound
    | some none => .error .expatError
    | some (some dom) =>
      match u.rels with
      | some none => .error .expatError
      | none =>
        match encodeNode note_id html dom (RelationshipManager.load none) with
        | (dom', rs') =>
          .ok (some { u with
            endnotes := some (some dom')
            rels := match rs'.relsFile with
              | some es => some (some es)
              | none => none })
      | some (some es) =>
        match encodeNode note_id html dom (RelationshipManager.load (some es)) with
        | (dom', rs') =>
          .ok (some { u with
            endnotes := some (some dom')
            rels := match rs'.relsFile with
              | some es' => some (some es')
              | none => none })

end SCP

namespace SCP

/-! ## Supporting lemmas -/

theorem digitChar_isDigit {n : Nat} (h : n < 10) :
    pyIsDigit (digitChar n) = true := by
  interval_cases n <;> decide

theorem digitChar_toNat {n : Nat} (h : n < 10) :
    (digitChar n).toNat = 48 + n := by
  interval_cases n <;> decide

theorem digitsVal_append (l : List Char) (c : Char) :
    digitsVal (l ++ [c]) = digitsVal l * 10 + (c.toNat - 48) := by
  simp [digitsVal, List.foldl_append]

theorem natDecAux_spec : ∀ f n, n < f →
    (natDecAux f n).all pyIsDigit = true ∧
    digitsVal (natDecAux f n) = n ∧ natDecAux f n ≠ [] := by
  intro f
  induction f with
  | zero => intro n h; exact absurd h (Nat.not_lt_zero n)
  | succ f ih =>
    intro n h
    by_cases h10 : n < 10
    · refine ⟨?_, ?_, ?_⟩ <;> simp [natDecAux, h10, digitsVal,
        digitChar_isDigit h10, digitChar_toNat h10]
    · have hpos : 0 < n := by omega
      have hlt : n / 10 < n := Nat.div_lt_self hpos (by norm_num)
      have hd : n / 10 < f := by omega
      obtain ⟨ha, hv, hne⟩ := ih (n / 10) hd
      have hmod : n % 10 < 10 := Nat.mod_lt _ (by norm_num)
      refine ⟨?_, ?_, ?_⟩
      · simp [natDecAux, h10, List.all_append, ha, digitChar_isDigit hmod]
      · have := Nat.div_add_mod n 10
        simp [natDecAux, h10, digitsVal_append, hv, digitChar_toNat hmod]
        omega
      · simp [natDecAux, h10]

theorem natDec_all_digits (n : Nat) : (natDec n).all pyIsDigit = true :=
  (natDecAux_spec _ _ (Nat.lt_succ_self n)).1

theorem digitsVal_natDec (n : Nat) : digitsVal (natDec n) = n :=
  (natDecAux_spec _ _ (Nat.lt_succ_self n)).2.1

theorem natDec_ne_nil (n : Nat) : natDec n ≠ [] :=
  (natDecAux_spec _ _ (Nat.lt_succ_self n)).2.2

theorem takeWhile_of_all {p : Char → Bool} :
    ∀ {l : List Char}, l.all p = true → l.takeWhile p = l := by
  intro l
  induction l with
  | nil => intro _; rfl
  | cons c cs ih =>
    intro h
    rw [List.all_cons] at h
    obtain ⟨h1, h2⟩ := by exact_mod_cast (Bool.and_eq_true _ _).mp h
    simp [List.takeWhile_cons, h1, ih h2]

theorem rId_data (l : List Char) :
    ("rId" ++ String.mk l).data = 'r' :: 'I' :: 'd' :: l := rfl

theorem firstDigitRun_rId (n : Nat) :
    firstDigitRun ("rId" ++ String.mk (natDec n)).data = some n := by
  rw [rId_data]
  have h1 : pyIsDigit 'r' = false := by decide
  have h2 : pyIsDigit 'I' = false := by decide
  have h3 : pyIsDigit 'd' = false := by decide
  rw [firstDigitRun, if_neg (by simp [h1]), firstDigitRun, if_neg (by simp [h2]),
    firstDigitRun, if_neg (by simp [h3])]
  rcases hE : natDec n with _ | ⟨c, cs⟩
  · exact absurd hE (natDec_ne_nil n)
  · have hall := natDec_all_digits n
    rw [hE, List.all_cons] at hall
    obtain ⟨hc, hcs⟩ := by exact_mod_cast (Bool.and_eq_true _ _).mp hall
    rw [firstDigitRun, if_pos hc, takeWhile_of_all hcs]
    have hv := digitsVal_natDec n
    rw [hE] at hv
    rw [hv]

theorem find?_append_none {α : Type} {p : α → Bool} :
    ∀ {l₁ : List α} (l₂ : List α), l₁.find? p = none →
      (l₁ ++ l₂).find? p = l₂.find? p := by
  intro l₁
  induction l₁ with
  | nil => intro l₂ _; rfl
  | cons a l ih =>
    intro l₂ h
    rcases hpa : p a with _ | _
    · rw [List.cons_append, List.find?_cons_of_neg _ (by simp [hpa])]
      rw [List.find?_cons_of_neg _ (by simp [hpa])] at h
      exact ih l₂ h
    · rw [List.find?_cons_of_pos _ hpa] at h
      exact absurd h (by simp)

theorem foldl_load_eq :
    ∀ (es : List RelEntry) (a : Nat),
      (∀ e ∈ es, ∃ n, firstDigitRun e.rId.data = some n) →
      es.foldl (fun acc e =>
          match firstDigitRun e.rId.data with
          | some k => max acc (k + 1)
          | none => acc) (a + 1)
        = (es.filterMap (fun e => firstDigitRun e.rId.data)).foldl max a + 1 := by
  intro es
  induction es with
  | nil => intro a _; rfl
  | cons e es ih =>
    intro a h
    obtain ⟨n, hn⟩ := h e (List.mem_cons_self _ _)
    have hrec := ih (max a n) (fun x hx => h x (List.mem_cons_of_mem _ hx))
    simp only [List.foldl_cons, List.filterMap_cons, hn]
    rw [show max (a + 1) (n + 1) = max a n + 1 from by omega]
    exact hrec

/-! ## Claim theorems: search-term derivation and relationship manager -/

/-- **C5** — counterexample.  The claim quantifies over the function
`clean_search_term` at both of its cited occurrences; the revision in
`src/App.py` has no URL check, so an input beginning with `www.` is not
returned unchanged: the trailing-number strip removes the final digit. -/
theorem url_passthrough_counterexample :
    pyStartsWith "www.example.com/2" "www." = true ∧
    OldApp.clean_search_term "www.example.com/2" ≠ "www.example.com/2" := by
  decide

/-- **C5** (amended): for every input string that begins with `http://`,
`https://` or `www.`, the `clean_search_term` of `src/app.py` (the revision
with the URL guard) returns the input unchanged; the earlier revision in
`src/App.py` lacks the guard and can alter such inputs. -/
theorem url_passthrough (s : String)
    (h : (pyStartsWith s "http://" || pyStartsWith s "https://" ||
          pyStartsWith s "www.") = true) :
    clean_search_term s = s := by
  unfold clean_search_term
  rw [if_pos h]

/-- Witness for `url_passthrough` at the spec's own example. -/
theorem url_passthrough_witness :
    clean_search_term "https://example.gov/x" = "https://example.gov/x" :=
  url_passthrough _ (by decide)

/-- **C3** — counterexample.  When a hyperlink-type entry with the given
`Target` already exists, calling `get_or_create_hyperlink` twice with that
URL appends zero new entries, not exactly one. -/
theorem hyperlink_dedup_counterexample :
    (let rs := RelationshipManager.load
        (some [⟨"rId1", hyperlinkType, "https://example.org/a", "External"⟩])
     let r1 := rs.get_or_create_hyperlink "https://example.org/a"
     let r2 := r1.2.get_or_create_hyperlink "https://example.org/a"
     r1.1 = r2.1 ∧
     r2.2.relationships.length ≠ rs.relationships.length + 1) := by
  decide

/-- **C3** (amended): for every URL and relationship-table state, calling
`get_or_create_hyperlink` twice with the same URL returns the same
identifier both times and, in total, appends exactly one new relationship
entry when no hyperlink-type entry with that exact `Target` pre-exists,
and zero entries when one does (the second call never appends). -/
theorem hyperlink_dedup (rs : RelState) (url : String) :
    (let r1 := rs.get_or_create_hyperlink url
     let r2 := r1.2.get_or_create_hyperlink url
     r1.1 = r2.1 ∧
     r2.2.relationships.length = r1.2.relationships.length ∧
     r1.2.relationships.length =
       (if rs.relationships.any (relMatches url) then rs.relationships.length
        else rs.relationships.length + 1)) := by
  rcases hf : rs.relationships.find? (relMatches url) with _ | ⟨rel⟩
  · have hany : rs.relationships.any (relMatches url) = false := by
      rw [List.any_eq_false]
      intro x hx
      simp [List.find?_eq_none] at hf
      simp [hf x hx]
    have hmatch : relMatches url
        ⟨"rId" ++ String.mk (natDec rs.next_id), hyperlinkType, url, "External"⟩
          = true := by
      simp [relMatches]
      decide
    have hsecond : (rs.relationships ++
        [(⟨"rId" ++ String.mk (natDec rs.next_id), hyperlinkType, url,
          "External"⟩ : RelEntry)]).find? (relMatches url)
        = some ⟨"rId" ++ String.mk (natDec rs.next_id), hyperlinkType, url,
          "External"⟩ := by
      rw [find?_append_none _ hf, List.find?_cons_of_pos _ hmatch]
    simp only [RelState.get_or_create_hyperlink, hf, hsecond, hany]
    simp
  · have hany : rs.relationships.any (relMatches url) = true := by
      rw [List.any_eq_true]
      exact ⟨rel, List.mem_of_find?_eq_some hf, List.find?_some hf⟩
    simp only [RelState.get_or_create_hyperlink, hf, hany]
    simp

/-- **C4**: after `_load`, the next identifier minted by
`get_or_create_hyperlink` (when it creates) carries integer suffix
`max(existing suffixes) + 1` — which is `1` when the file is absent or has
no entries — for identifiers of the standard `rId<N>` form. -/
theorem counter_monotonicity (es : List RelEntry) (url : String)
    (hform : ∀ e ∈ es, ∃ n, e.rId = "rId" ++ String.mk (natDec n))
    (hnew : es.find? (relMatches url) = none) :
    ((RelationshipManager.load (some es)).get_or_create_hyperlink url).1
        = "rId" ++ String.mk (natDec (maxSuffix es + 1)) ∧
    ((RelationshipManager.load none).get_or_create_hyperlink url).1
        = "rId" ++ String.mk (natDec 1) := by
  constructor
  · have hruns : ∀ e ∈ es, ∃ n, firstDigitRun e.rId.data = some n := by
      intro e he
      obtain ⟨n, hn⟩ := hform e he
      exact ⟨n, by rw [hn]; exact firstDigitRun_rId n⟩
    have hnext : (RelationshipManager.load (some es)).next_id
        = maxSuffix es + 1 := by
      show es.foldl _ 1 = _
      have := foldl_load_eq es 0 hruns
      simpa [maxSuffix] using this
    simp only [RelState.get_or_create_hyperlink]
    rw [show (RelationshipManager.load (some es)).relationships = es from rfl, hnew]
    rw [hnext]
  · rfl

/-- Witness for `counter_monotonicity` at the spec's own example:
existing identifiers `rId3` and `rId7` give next identifier `rId8`. -/
theorem counter_monotonicity_witness :
    (RelState.get_or_create_hyperlink
      (RelationshipManager.load
        (some [⟨"rId3", hyperlinkType, "https://a.example", "External"⟩,
               ⟨"rId7", hyperlinkType, "https://b.example", "External"⟩]))
      "https://new.example").1 = "rId8" := by
  have h := (counter_monotonicity
    [⟨"rId3", hyperlinkType, "https://a.example", "External"⟩,
     ⟨"rId7", hyperlinkType, "https://b.example", "External"⟩]
    "https://new.example"
    (by
      intro e he
      simp [List.mem_cons] at he
      rcases he with rfl | rfl
      · exact ⟨3, by decide⟩
      · exact ⟨7, by decide⟩)
    (by decide)).1
  rw [h]
  decide

/-- **C10**: when a hyperlink-type entry with exactly matching `Target`
exists, `get_or_create_hyperlink` returns the first such entry's
identifier and leaves the entire manager state (relationship list,
counter, relationship file) unmodified; when none exists, it appends
exactly the new entry, bumps the counter and rewrites the file with the
new table. -/
theorem hyperlink_resolve_frame (rs : RelState) (url : String) :
    (∀ e, rs.relationships.find? (relMatches url) = some e →
        (rs.get_or_create_hyperlink url).1 = e.rId ∧
        (rs.get_or_create_hyperlink url).2 = rs) ∧
    (rs.relationships.find? (relMatches url) = none →
        (rs.get_or_create_hyperlink url).2.relationships
            = rs.relationships ++
              [⟨"rId" ++ String.mk (natDec rs.next_id), hyperlinkType, url,
                "External"⟩] ∧
        (rs.get_or_create_hyperlink url).2.relsFile
            = some ((rs.get_or_create_hyperlink url).2.relationships) ∧
        (rs.get_or_create_hyperlink url).2.next_id = rs.next_id + 1) := by
  constructor
  · intro e he
    simp [RelState.get_or_create_hyperlink, he]
  · intro hn
    simp [RelState.get_or_create_hyperlink, hn]

/-- Witness for `hyperlink_resolve_frame`: a concrete pre-existing entry is
returned with the state untouched. -/
theorem hyperlink_resolve_frame_witness :
    (RelState.get_or_create_hyperlink
      (RelationshipManager.load
        (some [⟨"rId2", hyperlinkType, "https://example.org/b", "External"⟩]))
      "https://example.org/b").2
      = RelationshipManager.load
          (some [⟨"rId2", hyperlinkType, "https://example.org/b", "External"⟩]) :=
  ((hyperlink_resolve_frame
      (RelationshipManager.load
        (some [⟨"rId2", hyperlinkType, "https://example.org/b", "External"⟩]))
      "https://example.org/b").1
    ⟨"rId2", hyperlinkType, "https://example.org/b", "External"⟩ (by decide)).2

/-! ## Supporting lemmas for the decode codec -/

theorem decodeNote_id {rd : List (String × String)} {s : String}
    {en : XmlNode} {n : NoteRec} (h : decodeNote rd s en = .ok n) :
    n.id = s := by
  rw [decodeNote] at h
  split at h
  · exact absurd h (by simp)
  · split at h
    · exact absurd h (by simp)
    · cases h
      rfl

theorem extractLoop_ids {rd : List (String × String)} :
    ∀ {ens : List XmlNode} {notes : List NoteRec},
      extractLoop rd ens = .ok notes →
      ∀ n ∈ notes, n.id ≠ "" ∧ n.id ≠ "-1" ∧ n.id ≠ "0" := by
  intro ens
  induction ens with
  | nil =>
    intro notes h n hn
    cases h
    cases hn
  | cons en rest ih =>
    intro notes h n hn
    rw [extractLoop] at h
    by_cases hc : en.getAttr "w:id" ≠ "" ∧ en.getAttr "w:id" ≠ "-1" ∧
        en.getAttr "w:id" ≠ "0"
    · rw [if_pos hc] at h
      split at h
      · exact absurd h (by simp)
      · rename_i n₀ hd
        split at h
        · exact absurd h (by simp)
        · rename_i ns hr
          cases h
          cases hn with
          | head => rw [decodeNote_id hd]; exact hc
          | tail _ hmem => exact ih hr n hmem
    · rw [if_neg hc] at h
      exact ih h n hn

theorem insertAsc_perm (x : Int × NoteRec) :
    ∀ l : List (Int × NoteRec), (insertAsc x l).Perm (x :: l) := by
  intro l
  induction l with
  | nil => exact List.Perm.refl _
  | cons y ys ih =>
    rw [insertAsc]
    by_cases hc : x.1 ≤ y.1
    · rw [if_pos hc]
    · rw [if_neg hc]
      exact (ih.cons y).trans (List.Perm.swap _ _ _)

theorem insSortAsc_perm : ∀ l : List (Int × NoteRec), (insSortAsc l).Perm l := by
  intro l
  induction l with
  | nil => exact List.Perm.refl _
  | cons x xs ih => exact (insertAsc_perm x (insSortAsc xs)).trans (ih.cons x)

theorem keyNotes_snd :
    ∀ {notes : List NoteRec} {keyed : List (Int × NoteRec)},
      keyNotes notes = .ok keyed → keyed.map Prod.snd = notes := by
  intro notes
  induction notes with
  | nil => intro keyed h; cases h; rfl
  | cons n ns ih =>
    intro keyed h
    rw [keyNotes] at h
    rcases hk : pyInt n.id with _ | k <;> rw [hk] at h
    · exact absurd h (by simp)
    · rcases hks : keyNotes ns with e | ks <;> rw [hks] at h
      · exact absurd h (by simp)
      · cases h
        simp [ih hks]

theorem sortNotes_mem {notes sorted : List NoteRec}
    (h : sortNotes notes = .ok sorted) : ∀ n ∈ sorted, n ∈ notes := by
  intro n hn
  rw [sortNotes] at h
  rcases hk : keyNotes notes with e | keyed <;> rw [hk] at h
  · exact absurd h (by simp)
  · cases h
    rw [List.mem_map] at hn
    obtain ⟨p, hp, hpn⟩ := hn
    have hpk : p ∈ keyed := (insSortAsc_perm keyed).mem_iff.mp hp
    rw [← keyNotes_snd hk]
    rw [List.mem_map]
    exact ⟨p, hpk, hpn⟩

theorem extractCore_ids {dom : XmlNode} {rd : List (String × String)}
    {notes : List NoteRec} (h : extractCore dom rd = .ok notes) :
    ∀ n ∈ notes, n.id ≠ "" ∧ n.id ≠ "-1" ∧ n.id ≠ "0" := by
  intro n hn
  rw [extractCore] at h
  rcases hl : extractLoop rd (dom.descByTag "w:endnote") with e | notes₀ <;>
    rw [hl] at h
  · exact absurd h (by simp)
  · exact extractLoop_ids hl n (sortNotes_mem h n hn)

/-! ## Claim theorems: decode codec -/

/-- **C2** — counterexample.  A recorded notes-part path whose content the
XML parser rejects makes `extract_endnotes_xml` raise the parse error
rather than return an empty list: only a missing `user_data` or a falsy
path is guarded. -/
theorem missing_input_counterexample :
    extract_endnotes_xml (some ⟨"word/endnotes.xml", some none, none⟩)
      = .error .expatError := rfl

/-- **C2** (amended): decode returns `[]` without error when there is no
user data or the recorded notes-part path is falsy; when the path is set
but no file exists there, or the file's content is not well-formed markup,
the underlying `FileNotFoundError` / `ExpatError` propagates instead of
yielding an empty list. -/
theorem missing_input_amended :
    (extract_endnotes_xml none = .ok []) ∧
    (∀ u : UserData, u.endnotes_file = "" →
      extract_endnotes_xml (some u) = .ok []) ∧
    (∀ u : UserData, u.endnotes_file ≠ "" → u.endnotes = none →
      extract_endnotes_xml (some u) = .error .fileNotFound) ∧
    (∀ u : UserData, u.endnotes_file ≠ "" → u.endnotes = some none →
      extract_endnotes_xml (some u) = .error .expatError) := by
  refine ⟨rfl, ?_, ?_, ?_⟩
  · intro u hu
    simp [extract_endnotes_xml, hu]
  · intro u hu he
    simp [extract_endnotes_xml, hu, he]
  · intro u hu he
    simp [extract_endnotes_xml, hu, he]

/-- Witness for `missing_input_amended` at concrete session states. -/
theorem missing_input_witness :
    extract_endnotes_xml (some ⟨"", some none, none⟩) = .ok [] ∧
    extract_endnotes_xml (some ⟨"word/endnotes.xml", none, none⟩)
      = .error .fileNotFound :=
  ⟨missing_input_amended.2.1 ⟨"", some none, none⟩ rfl,
   missing_input_amended.2.2.1 ⟨"word/endnotes.xml", none, none⟩ (by decide) rfl⟩

/-- **C7**: for every input, no note returned by `extract_endnotes_xml`
has id `-1` or `0` (ids are the `w:id` attribute strings; the filter also
discards an empty id). -/
theorem id_filtering (ud : Option UserData) (notes : List NoteRec)
    (h : extract_endnotes_xml ud = .ok notes) :
    ∀ n ∈ notes, n.id ≠ "-1" ∧ n.id ≠ "0" := by
  intro n hn
  rcases ud with _ | u
  · cases h
    cases hn
  · rw [extract_endnotes_xml] at h
    by_cases hf : u.endnotes_file = ""
    · rw [if_pos hf] at h
      cases h
      cases hn
    · rw [if_neg hf] at h
      split at h
      · exact absurd h (by simp)
      · exact absurd h (by simp)
      · split at h
        · exact (extractCore_ids h n hn).2
        · exact absurd h (by simp)
        · exact (extractCore_ids h n hn).2

/-- Witness for `id_filtering`: a document containing notes with ids
`-1`, `0` and `2` decodes to just the note with id `2`. -/
theorem id_filtering_witness :
    (⟨"2", "hello", "hello"⟩ : NoteRec).id ≠ "-1" ∧
    (⟨"2", "hello", "hello"⟩ : NoteRec).id ≠ "0" :=
  id_filtering
    (some ⟨"word/endnotes.xml",
      some (some (.elem "w:document" []
        [.elem "w:endnote" [("w:id", "-1")] [],
         .elem "w:endnote" [("w:id", "0")] [],
         .elem "w:endnote" [("w:id", "2")]
           [.elem "w:p" []
             [.elem "w:r" [] [.elem "w:t" [] [.text "hello"]]]]])),
      none⟩)
    [⟨"2", "hello", "hello"⟩] rfl ⟨"2", "hello", "hello"⟩ (by simp)

/-- **C8**: for every decoded note, the concatenation of its spans' texts
in order equals the full-text accumulator from which `clean_term` is
derived (they agree exactly before the shared trim). -/
theorem span_concat (rd : List (String × String)) (cs : List XmlNode)
    (en_id : String) (emits : List ChildEmit)
    (h : processChildren rd cs = .ok emits) :
    emits.flatMap ChildEmit.fullChars
        = ((emits.map ChildEmit.spanText).map String.data).flatten ∧
    (mkNote en_id emits).clean_term
        = clean_search_term (String.mk (pyStripL
            (((emits.map ChildEmit.spanText).map String.data).flatten))) := by
  have hmain : emits.flatMap ChildEmit.fullChars
      = ((emits.map ChildEmit.spanText).map String.data).flatten := by
    clear h
    induction emits with
    | nil => rfl
    | cons e es ih =>
      rcases e with ⟨url, ts⟩ | ⟨s, i⟩ <;>
        simp [ChildEmit.fullChars, ChildEmit.spanText, ih]
  exact ⟨hmain, by rw [mkNote, hmain]⟩

/-- Witness for `span_concat` on a concrete paragraph with a plain run, a
hyperlink and an italic run. -/
theorem span_concat_witness :
    ([ChildEmit.run "See " false,
      ChildEmit.link "https://x.example" ["site"],
      ChildEmit.run "Title" true].flatMap ChildEmit.fullChars
      = (([ChildEmit.run "See " false,
           ChildEmit.link "https://x.example" ["site"],
           ChildEmit.run "Title" true].map ChildEmit.spanText).map
          String.data).flatten) :=
  (span_concat [("rId4", "https://x.example")]
    [.elem "w:r" [] [.elem "w:t" [] [.text "See "]],
     .elem "w:hyperlink" [("r:id", "rId4")]
       [.elem "w:r" [] [.elem "w:t" [] [.text "site"]]],
     .elem "w:r" []
       [.elem "w:rPr" [] [.elem "w:i" [] []],
        .elem "w:t" [] [.text "Title"]]]
    "1" _ rfl).1

/-! ## Supporting lemmas for the encode codec -/

theorem descListByTag_cons (tag : String) (c : XmlNode) (cs : List XmlNode) :
    XmlNode.descListByTag tag (c :: cs)
      = (match c with
         | .elem t _ _ => if t = tag then [c] else []
         | .text _ => []) ++ XmlNode.descByTag tag c ++
        XmlNode.descListByTag tag cs := rfl

theorem descListByTag_singleton (tag : String) (c : XmlNode) :
    XmlNode.descListByTag tag [c]
      = (match c with
         | .elem t _ _ => if t = tag then [c] else []
         | .text _ => []) ++ XmlNode.descByTag tag c := by
  rw [descListByTag_cons]
  simp [XmlNode.descListByTag]

mutual

theorem encodeNode_noMatch (nid html : String) :
    ∀ (n : XmlNode) (rs : RelState),
      (∀ en ∈ XmlNode.descListByTag "w:endnote" [n], en.getAttr "w:id" ≠ nid) →
      encodeNode nid html n rs = (n, rs)
  | .text s, rs, _ => rfl
  | .elem t a cs, rs, h => by
    have hcs : ∀ en ∈ XmlNode.descListByTag "w:endnote" cs,
        en.getAttr "w:id" ≠ nid := by
      intro en hen
      apply h
      rw [descListByTag_singleton]
      rw [show XmlNode.descByTag "w:endnote" (.elem t a cs)
            = XmlNode.descListByTag "w:endnote" cs from rfl]
      exact List.mem_append_right _ hen
    have hself : ¬(t = "w:endnote" ∧ (XmlNode.elem t a cs).getAttr "w:id" = nid) := by
      rintro ⟨rfl, hid⟩
      refine h (XmlNode.elem "w:endnote" a cs) ?_ hid
      rw [descListByTag_singleton]
      simp
    rw [encodeNode, if_neg hself, encodeList_noMatch nid html cs rs hcs]

theorem encodeList_noMatch (nid html : String) :
    ∀ (cs : List XmlNode) (rs : RelState),
      (∀ en ∈ XmlNode.descListByTag "w:endnote" cs, en.getAttr "w:id" ≠ nid) →
      encodeList nid html cs rs = (cs, rs)
  | [], rs, _ => rfl
  | c :: cs, rs, h => by
    have h1 : ∀ en ∈ XmlNode.descListByTag "w:endnote" [c],
        en.getAttr "w:id" ≠ nid := by
      intro en hen
      apply h
      rw [descListByTag_singleton] at hen
      rw [descListByTag_cons]
      rcases List.mem_append.mp hen with hm | hm
      · exact List.mem_append_left _ (List.mem_append_left _ hm)
      · exact List.mem_append_left _ (List.mem_append_right _ hm)
    have h2 : ∀ en ∈ XmlNode.descListByTag "w:endnote" cs,
        en.getAttr "w:id" ≠ nid := by
      intro en hen
      apply h
      rw [descListByTag_cons]
      exact List.mem_append_right _ hen
    simp [encodeList, encodeNode_noMatch nid html c rs h1,
      encodeList_noMatch nid html cs rs h2]

end

theorem isPrefixOf_em_of_ahref {u : List Char}
    (h : "<a href=".data.isPrefixOf u = true) :
    "<em>".data.isPrefixOf u = false := by
  rcases List.isPrefixOf_iff_prefix.mp h with ⟨r, rfl⟩
  rfl

theorem processTokens_plain_mem :
    ∀ (toks : List (List Char)) (rs : RelState) (t : List Char),
      t ∈ toks → t ≠ [] →
      "<a href=".data.isPrefixOf (pyUnescape t) = true →
      matchA (pyUnescape t) = none →
      textRun (pyUnescape t) false ∈ (processTokens rs toks).1 := by
  intro toks
  induction toks with
  | nil => intro rs t ht; cases ht
  | cons t₀ rest ih =>
    intro rs t ht hne hpre hfail
    rcases List.mem_cons.mp ht with rfl | hmem
    · have hemp : t.isEmpty = false := by
        cases t
        · exact absurd rfl hne
        · rfl
      rw [processTokens, hemp]
      simp only [Bool.false_eq_true, if_false]
      rw [if_pos hpre, hfail]
      simp only [isPrefixOf_em_of_ahref hpre, Bool.false_eq_true, if_false]
      exact List.mem_cons_self _ _
    · rw [processTokens]
      by_cases hemp : t₀.isEmpty
      · rw [if_pos hemp]
        exact ih rs t hmem hne hpre hfail
      · rw [if_neg hemp]
        by_cases hp : "<a href=".data.isPrefixOf (pyUnescape t₀) = true
        · rw [if_pos hp]
          rcases hm : matchA (pyUnescape t₀) with _ | ⟨url, txt, r⟩
          · simp only
            exact List.mem_cons_of_mem _ (ih rs t hmem hne hpre hfail)
          · simp only
            exact List.mem_cons_of_mem _ (ih _ t hmem hne hpre hfail)
        · rw [if_neg hp]
          exact List.mem_cons_of_mem _ (ih rs t hmem hne hpre hfail)

/-! ## Tokenizer lemmas (for the round-trip claim) -/

theorem isPrefixOf_of_append (p r : List Char) :
    p.isPrefixOf (p ++ r) = true :=
  List.isPrefixOf_iff_prefix.mpr (List.prefix_append p r)

theorem isPrefixOf_stable {pat u : List Char} (hlen : pat.length ≤ u.length)
    (v w : List Char) :
    pat.isPrefixOf (u ++ v) = pat.isPrefixOf (u ++ w) := by
  induction pat generalizing u with
  | nil =>
    have h1 : ([] : List Char).isPrefixOf (u ++ v) = true :=
      List.isPrefixOf_iff_prefix.mpr List.nil_prefix
    have h2 : ([] : List Char).isPrefixOf (u ++ w) = true :=
      List.isPrefixOf_iff_prefix.mpr List.nil_prefix
    rw [h1, h2]
  | cons p ps ih =>
    cases u with
    | nil => simp at hlen
    | cons a u' =>
      have hlen' : ps.length <= u'.length := by
        simp only [List.length_cons] at hlen
        omega
      have hih := ih (u := u') hlen'
      change ((p == a) && ps.isPrefixOf (u' ++ v))
        = ((p == a) && ps.isPrefixOf (u' ++ w))
      rw [hih]

theorem splitFirst_recon {pat : List Char} :
    ∀ {s a b : List Char}, splitFirst pat s = some (a, b) →
      s = a ++ pat ++ b := by
  intro s
  induction s with
  | nil =>
    intro a b h
    rw [splitFirst] at h
    split at h
    · rename_i hp
      cases h
      have := List.isPrefixOf_iff_prefix.mp hp
      rcases this with ⟨t, ht⟩
      cases t
      · simpa using ht.symm
      · exact absurd ht (by simp)
    · exact absurd h (by simp)
  | cons c cs ih =>
    intro a b h
    rw [splitFirst] at h
    split at h
    · rename_i hp
      cases h
      rcases List.isPrefixOf_iff_prefix.mp hp with ⟨t, ht⟩
      have hd : (c :: cs).drop pat.length = t := by
        rw [← ht, List.drop_left]
      rw [hd, List.nil_append, ht]
    · rcases hrec : splitFirst pat cs with _ | ⟨a', b'⟩ <;> rw [hrec] at h
      · exact absurd h (by simp)
      · simp only [Option.map_some'] at h
        cases h
        rw [List.cons_append, List.cons_append, ← List.cons_append]
        rw [ih hrec]
        simp

theorem splitFirst_pat_le {pat s a b : List Char}
    (h : splitFirst pat s = some (a, b)) : pat.length ≤ s.length := by
  rw [splitFirst_recon h]
  simp
  omega

theorem splitFirst_append {pat : List Char} :
    ∀ {a pre post : List Char} (z : List Char),
      splitFirst pat a = some (pre, post) →
      splitFirst pat (a ++ z) = some (pre, post ++ z) := by
  intro a
  induction a with
  | nil =>
    intro pre post z h
    rw [splitFirst] at h
    split at h
    · rename_i hp
      cases h
      have hpat : pat = [] := by
        rcases List.isPrefixOf_iff_prefix.mp hp with ⟨t, ht⟩
        cases pat
        · rfl
        · exact absurd ht (by simp)
      subst hpat
      cases z with
      | nil => rfl
      | cons c cs =>
        rw [List.nil_append, splitFirst, if_pos (by simp [List.isPrefixOf])]
        rfl
    · exact absurd h (by simp)
  | cons c cs ih =>
    intro pre post z h
    rw [splitFirst] at h
    split at h
    · rename_i hp
      cases h
      have hle : pat.length ≤ (c :: cs).length :=
        (List.isPrefixOf_iff_prefix.mp hp).length_le
      rw [List.cons_append, splitFirst,
        if_pos (by
          rw [← List.cons_append]
          rw [isPrefixOf_stable hle z []]
          simpa using hp)]
      rw [← List.cons_append, List.drop_append_of_le_length hle]
    · rename_i hp
      rcases hrec : splitFirst pat cs with _ | ⟨a', b'⟩ <;> rw [hrec] at h
      · exact absurd h (by simp)
      · simp only [Option.map_some'] at h
        cases h
        have hle : pat.length ≤ cs.length := splitFirst_pat_le hrec
        rw [List.cons_append, splitFirst,
          if_neg (by
            rw [← List.cons_append]
            rw [isPrefixOf_stable (by simpa using Nat.le_succ_of_le hle) z []]
            simpa using hp),
          ih z hrec]
        rfl

theorem splitFirst_exact {pat : List Char} :
    ∀ {s x rest : List Char} (c : List Char),
      splitFirst pat s = some (x, rest) →
      splitFirst pat (x ++ pat ++ c) = some (x, c) := by
  intro s
  induction s with
  | nil =>
    intro x rest c h
    rw [splitFirst] at h
    split at h
    · rename_i hp
      cases h
      have hpat : pat = [] := by
        rcases List.isPrefixOf_iff_prefix.mp hp with ⟨t, ht⟩
        cases pat
        · rfl
        · exact absurd ht (by simp)
      subst hpat
      cases c with
      | nil => rfl
      | cons a as =>
        rw [List.nil_append, List.nil_append, splitFirst,
          if_pos (by simp [List.isPrefixOf])]
        rfl
    · exact absurd h (by simp)
  | cons ch cs ih =>
    intro x rest c h
    rw [splitFirst] at h
    split at h
    · rename_i hp
      cases h
      rw [List.nil_append]
      cases hpc : pat ++ c with
      | nil =>
        rcases List.append_eq_nil.mp hpc with ⟨h1, h2⟩
        subst h1; subst h2
        rfl
      | cons a as =>
        rw [splitFirst,
          if_pos (by rw [← hpc]; exact isPrefixOf_of_append pat c)]
        rw [← hpc, List.drop_left]
    · rename_i hp
      rcases hrec : splitFirst pat cs with _ | ⟨x', b'⟩ <;> rw [hrec] at h
      · exact absurd h (by simp)
      · simp only [Option.map_some'] at h
        cases h
        have hcs : cs = x' ++ pat ++ rest := splitFirst_recon hrec
        have hle : pat.length ≤ (ch :: (x' ++ pat)).length := by
          simp
          omega
        have hnp : pat.isPrefixOf ((ch :: (x' ++ pat)) ++ c) = false := by
          rw [isPrefixOf_stable hle c rest]
          have hctx : (ch :: (x' ++ pat)) ++ rest = ch :: cs := by
            rw [hcs]
            simp
          rw [hctx]
          exact Bool.not_eq_true _ ▸ hp
        have hgoal : (ch :: x') ++ pat ++ c = ch :: (x' ++ pat ++ c) := by
          simp
        rw [hgoal, splitFirst,
          if_neg (by
            rw [show ch :: (x' ++ pat ++ c) = (ch :: (x' ++ pat)) ++ c from
              by simp, hnp]
            simp),
          ih c hrec]
        rfl

theorem splitFirst_not_mem {q : Char} :
    ∀ {s u b : List Char}, splitFirst [q] s = some (u, b) → q ∉ u := by
  intro s
  induction s with
  | nil =>
    intro u b h
    rw [splitFirst] at h
    split at h
    · rename_i hp
      simp [List.isPrefixOf] at hp
    · exact absurd h (by simp)
  | cons c cs ih =>
    intro u b h
    rw [splitFirst] at h
    split at h
    · cases h
      simp
    · rename_i hp
      rcases hrec : splitFirst [q] cs with _ | ⟨u', b'⟩ <;> rw [hrec] at h
      · exact absurd h (by simp)
      · simp only [Option.map_some'] at h
        cases h
        intro hmem
        rcases List.mem_cons.mp hmem with rfl | hmem'
        · simp [List.isPrefixOf] at hp
        · exact ih hrec hmem'

theorem splitFirst_single {q : Char} :
    ∀ {u : List Char} (z : List Char), q ∉ u →
      splitFirst [q] (u ++ q :: z) = some (u, z) := by
  intro u
  induction u with
  | nil =>
    intro z _
    rw [List.nil_append, splitFirst, if_pos (by simp [List.isPrefixOf])]
    rfl
  | cons c cs ih =>
    intro z hq
    rw [List.cons_append, splitFirst,
      if_neg (by
        simp only [List.isPrefixOf, List.isPrefixOf_nil_left, Bool.and_true]
        simp only [beq_iff_eq]
        intro hc
        exact hq (by rw [hc]; exact List.mem_cons_self _ _)),
      ih z (fun hm => hq (List.mem_cons_of_mem _ hm))]
    rfl

theorem eq_append_drop_of_isPrefixOf {p s : List Char}
    (h : p.isPrefixOf s = true) : s = p ++ s.drop p.length := by
  rcases List.isPrefixOf_iff_prefix.mp h with ⟨t, ht⟩
  rw [← ht, List.drop_left]

theorem matchA_cases {s : List Char} {u x rest : List Char}
    (h : matchA s = some (u, x, rest)) :
    ∃ s3, "<a href=\"".data.isPrefixOf s = true ∧
      splitFirst ['"'] (s.drop 9) = some (u, '>' :: s3) ∧
      u.isEmpty = false ∧
      splitFirst "</a>".data s3 = some (x, rest) ∧
      '\n' ∉ x := by
  rw [matchA] at h
  split at h
  · rename_i hp
    split at h
    · exact absurd h (by simp)
    · rename_i u0 s2 hsp
      split at h
      · exact absurd h (by simp)
      · rename_i hne
        split at h
        · rename_i c s3
          split at h
          · rename_i hc
            subst hc
            split at h
            · exact absurd h (by simp)
            · rename_i x0 r0 hsp2
              split at h
              · exact absurd h (by simp)
              · rename_i hnl
                cases h
                refine ⟨_, hp, hsp, ?_, hsp2, hnl⟩
                simpa using hne
          · exact absurd h (by simp)
        · exact absurd h (by simp)
  · exact absurd h (by simp)

theorem matchA_recon {s u x rest : List Char}
    (h : matchA s = some (u, x, rest)) : s = tokA u x ++ rest := by
  obtain ⟨s3, hp, hsp, _, hsp2, _⟩ := matchA_cases h
  have h1 : s = "<a href=\"".data ++ s.drop 9 := by
    have := eq_append_drop_of_isPrefixOf hp
    simpa using this
  have h2 : s.drop 9 = u ++ ['"'] ++ ('>' :: s3) := splitFirst_recon hsp
  have h3 : s3 = x ++ "</a>".data ++ rest := splitFirst_recon hsp2
  rw [h1, h2, h3, tokA]
  simp

theorem matchA_tok {s u x rest : List Char}
    (h : matchA s = some (u, x, rest)) :
    matchA (tokA u x) = some (u, x, []) := by
  obtain ⟨s3, hp, hsp, hne, hsp2, hnl⟩ := matchA_cases h
  have hq : '"' ∉ u := splitFirst_not_mem hsp
  have htok : tokA u x
      = "<a href=\"".data ++ (u ++ '"' :: ('>' :: (x ++ "</a>".data))) := by
    rw [tokA]
    simp
  have hlast : splitFirst "</a>".data (x ++ "</a>".data) = some (x, []) := by
    have := splitFirst_exact ([] : List Char) hsp2
    simpa using this
  rw [matchA]
  rw [htok, if_pos (isPrefixOf_of_append _ _)]
  rw [show ((9 : Nat) = ("<a href=\"".data).length) from rfl, List.drop_left]
  rw [splitFirst_single ('>' :: (x ++ "</a>".data)) hq]
  dsimp only
  rw [if_neg (by simp [hne]), if_pos rfl]
  rw [show splitFirst ['<', '/', 'a', '>'] (x ++ ['<', '/', 'a', '>'])
      = some (x, ([] : List Char)) from hlast]
  dsimp only
  rw [if_neg hnl]

theorem matchE_cases {s x rest : List Char}
    (h : matchE s = some (x, rest)) :
    "<em>".data.isPrefixOf s = true ∧
      splitFirst "</em>".data (s.drop 4) = some (x, rest) ∧
      '\n' ∉ x := by
  rw [matchE] at h
  split at h
  · rename_i hp
    split at h
    · exact absurd h (by simp)
    · rename_i x0 r0 hsp
      split at h
      · exact absurd h (by simp)
      · rename_i hnl
        cases h
        exact ⟨hp, hsp, hnl⟩
  · exact absurd h (by simp)

theorem matchE_recon {s x rest : List Char}
    (h : matchE s = some (x, rest)) : s = tokE x ++ rest := by
  obtain ⟨hp, hsp, _⟩ := matchE_cases h
  have h1 : s = "<em>".data ++ s.drop 4 := by
    have := eq_append_drop_of_isPrefixOf hp
    simpa using this
  have h2 : s.drop 4 = x ++ "</em>".data ++ rest := splitFirst_recon hsp
  rw [h1, h2, tokE]
  simp

theorem matchE_tok {s x rest : List Char}
    (h : matchE s = some (x, rest)) :
    matchE (tokE x) = some (x, []) := by
  obtain ⟨hp, hsp, hnl⟩ := matchE_cases h
  have htok : tokE x = "<em>".data ++ (x ++ "</em>".data) := by
    rw [tokE]
    simp
  have hlast : splitFirst "</em>".data (x ++ "</em>".data) = some (x, []) := by
    have := splitFirst_exact ([] : List Char) hsp
    simpa using this
  rw [matchE, htok, if_pos (isPrefixOf_of_append _ _)]
  rw [show ((4 : Nat) = ("<em>".data).length) from rfl, List.drop_left]
  rw [hlast]
  dsimp only
  rw [if_neg hnl]

theorem matchA_lt_e (l : List Char) : matchA ('<' :: 'e' :: l) = none := by
  have hpf : "<a href=\"".data.isPrefixOf ('<' :: 'e' :: l) = false := rfl
  rw [matchA, hpf]
  simp

theorem tokE_shape (x : List Char) :
    tokE x = '<' :: 'e' :: ('m' :: '>' :: (x ++ "</em>".data)) := by
  rw [tokE]
  rfl

theorem matchA_extend {a u x r : List Char} (z : List Char)
    (h : matchA a = some (u, x, r)) :
    matchA (a ++ z) = some (u, x, r ++ z) := by
  obtain ⟨s3, hp, hsp, hne, hsp2, hnl⟩ := matchA_cases h
  have hlen : ("<a href=\"".data).length ≤ a.length :=
    (List.isPrefixOf_iff_prefix.mp hp).length_le
  have hp' : "<a href=\"".data.isPrefixOf (a ++ z) = true := by
    rcases List.isPrefixOf_iff_prefix.mp hp with ⟨t, ht⟩
    rw [← ht, List.append_assoc]
    exact isPrefixOf_of_append _ _
  have hdrop : (a ++ z).drop 9 = a.drop 9 ++ z := by
    rw [List.drop_append_of_le_length (by simpa using hlen)]
  rw [matchA, if_pos hp', hdrop, splitFirst_append z hsp]
  dsimp only
  rw [if_neg (by simp [hne])]
  rw [List.cons_append]
  dsimp only
  rw [show splitFirst ['<', '/', 'a', '>'] (s3 ++ z) = some (x, r ++ z) from
    splitFirst_append z hsp2]
  rw [if_pos rfl]
  dsimp only
  rw [if_neg hnl]

theorem matchE_extend {a x r : List Char} (z : List Char)
    (h : matchE a = some (x, r)) :
    matchE (a ++ z) = some (x, r ++ z) := by
  obtain ⟨hp, hsp, hnl⟩ := matchE_cases h
  have hlen : ("<em>".data).length ≤ a.length :=
    (List.isPrefixOf_iff_prefix.mp hp).length_le
  have hp' : "<em>".data.isPrefixOf (a ++ z) = true := by
    rcases List.isPrefixOf_iff_prefix.mp hp with ⟨t, ht⟩
    rw [← ht, List.append_assoc]
    exact isPrefixOf_of_append _ _
  have hdrop : (a ++ z).drop 4 = a.drop 4 ++ z := by
    rw [List.drop_append_of_le_length (by simpa using hlen)]
  rw [matchE, if_pos hp', hdrop, splitFirst_append z hsp]
  dsimp only
  rw [if_neg hnl]

theorem tryTok_none_parts {s : List Char} (h : tryTok s = none) :
    matchA s = none ∧ matchE s = none := by
  rw [tryTok] at h
  split at h
  · exact absurd h (by simp)
  · rename_i hA
    split at h
    · exact absurd h (by simp)
    · rename_i hE
      exact ⟨hA, hE⟩

theorem tryTok_none_left {a z : List Char} (h : tryTok (a ++ z) = none) :
    matchA a = none ∧ matchE a = none := by
  obtain ⟨hA, hE⟩ := tryTok_none_parts h
  constructor
  · rcases hA' : matchA a with _ | ⟨⟨u, x, r⟩⟩
    · rfl
    · rw [matchA_extend z hA'] at hA
      exact absurd hA (by simp)
  · rcases hE' : matchE a with _ | ⟨⟨x, r⟩⟩
    · rfl
    · rw [matchE_extend z hE'] at hE
      exact absurd hE (by simp)

theorem tryTok_some_spec {s tok rest : List Char}
    (h : tryTok s = some (tok, rest)) :
    s = tok ++ rest ∧ tok ≠ [] ∧
      ((∃ u x, tok = tokA u x ∧ matchA tok = some (u, x, [])) ∨
       (∃ x, tok = tokE x ∧ matchE tok = some (x, []) ∧ matchA tok = none)) := by
  rw [tryTok] at h
  split at h
  · rename_i u x r hA
    cases h
    refine ⟨matchA_recon hA, ?_, Or.inl ⟨u, x, rfl, matchA_tok hA⟩⟩
    rw [tokA]
    simp
  · rename_i hA
    split at h
    · rename_i x r hE
      cases h
      refine ⟨matchE_recon hE, ?_,
        Or.inr ⟨x, rfl, matchE_tok hE, by rw [tokE_shape]; exact matchA_lt_e _⟩⟩
      rw [tokE]
      simp
    · exact absurd h (by simp)

theorem splitCapAux_flatten :
    ∀ (f : Nat) (s gap : List Char),
      (splitCapAux f s gap).flatten = gap.reverse ++ s := by
  intro f
  induction f with
  | zero =>
    intro s gap
    cases s <;> simp [splitCapAux]
  | succ f ih =>
    intro s gap
    cases s with
    | nil => simp [splitCapAux]
    | cons c cs =>
      rw [splitCapAux]
      rcases htt : tryTok (c :: cs) with _ | ⟨tok, rest⟩
      · rw [ih cs (c :: gap)]
        simp
      · obtain ⟨hrecon, _, _⟩ := tryTok_some_spec htt
        simp only [List.flatten_cons, ih rest []]
        rw [List.reverse_nil, List.nil_append, ← hrecon]

theorem pySplitCap_flatten (l : List Char) : (pySplitCap l).flatten = l := by
  rw [pySplitCap, splitCapAux_flatten]
  rfl

theorem splitCapAux_classify :
    ∀ (f : Nat) (s gap : List Char), s.length ≤ f →
      (gap = [] ∨ tryTok (gap.reverse ++ s) = none) →
      ∀ t ∈ splitCapAux f s gap,
        t = [] ∨
        (∃ u x, t = tokA u x ∧ matchA t = some (u, x, [])) ∨
        (∃ x, t = tokE x ∧ matchE t = some (x, []) ∧ matchA t = none) ∨
        (matchA t = none ∧ matchE t = none) := by
  intro f
  induction f with
  | zero =>
    intro s gap hf hinv t ht
    cases s with
    | nil =>
      rw [show splitCapAux 0 [] gap = [gap.reverse] from rfl] at ht
      rcases List.mem_singleton.mp ht with rfl
      rcases hinv with hg | hg
      · left
        rw [hg]
        rfl
      · right; right; right
        rw [List.append_nil] at hg
        exact tryTok_none_parts hg
    | cons c cs => simp at hf
  | succ f ih =>
    intro s gap hf hinv t ht
    cases s with
    | nil =>
      rw [show splitCapAux (f + 1) [] gap = [gap.reverse] from rfl] at ht
      rcases List.mem_singleton.mp ht with rfl
      rcases hinv with hg | hg
      · left
        rw [hg]
        rfl
      · right; right; right
        rw [List.append_nil] at hg
        exact tryTok_none_parts hg
    | cons c cs =>
      rw [splitCapAux] at ht
      rcases htt : tryTok (c :: cs) with _ | ⟨tok, rest⟩ <;> rw [htt] at ht
      · refine ih cs (c :: gap) (by simpa using hf) ?_ t ht
        right
        rw [List.reverse_cons, List.append_assoc]
        rcases hinv with hg | hg
        · rw [hg]
          simpa using htt
        · rw [show ([c] ++ cs : List Char) = c :: cs from rfl]
          exact hg
      · obtain ⟨hrecon, htne, hclass⟩ := tryTok_some_spec htt
        rcases List.mem_cons.mp ht with rfl | ht2
        · rcases hinv with hg | hg
          · left
            rw [hg]
            rfl
          · right; right; right
            exact tryTok_none_left hg
        · rcases List.mem_cons.mp ht2 with rfl | ht3
          · right
            rcases hclass with hA | hE
            · exact Or.inl hA
            · exact Or.inr (Or.inl hE)
          · have hlen : rest.length ≤ f := by
              have h1 : (tok ++ rest).length = cs.length + 1 := by
                rw [← hrecon]
                rfl
              have h2 : 1 ≤ tok.length := by
                cases tok
                · exact absurd rfl htne
                · simp
              rw [List.length_append] at h1
              simp at hf
              omega
            exact ih rest [] hlen (Or.inl rfl) t ht3

theorem pySplitCap_classify {l : List Char} :
    ∀ t ∈ pySplitCap l,
      t = [] ∨
      (∃ u x, t = tokA u x ∧ matchA t = some (u, x, [])) ∨
      (∃ x, t = tokE x ∧ matchE t = some (x, []) ∧ matchA t = none) ∨
      (matchA t = none ∧ matchE t = none) :=
  splitCapAux_classify l.length l [] (Nat.le_refl _) (Or.inl rfl)

theorem tokE_isPrefix_em (x : List Char) :
    "<em>".data.isPrefixOf (tokE x) = true := by
  rw [show tokE x = "<em>".data ++ (x ++ "</em>".data) from by rw [tokE]; simp]
  exact isPrefixOf_of_append _ _

/-- Combination of the split classification with the markup-side safety
condition: every token of a `tokenSafe` markup string is `TokOk`. -/
theorem pySplitCap_tokOk {h : String} (hs : tokenSafe h) :
    ∀ t ∈ pySplitCap h.data, TokOk t := by
  intro t ht
  obtain ⟨hne, hem⟩ := hs t ht
  rcases pySplitCap_classify t ht with rfl | hA | hE | hgap
  · exact Or.inl rfl
  · exact Or.inr ⟨hne, Or.inl hA⟩
  · obtain ⟨x, htok, hEm, hAn⟩ := hE
    have hpre : "<em>".data.isPrefixOf t = true := by
      rw [htok]
      exact tokE_isPrefix_em x
    have hok := hem hpre
    rw [emTokOk, hEm] at hok
    have hx : x ≠ [] := by
      intro hx0
      rw [hx0] at hok
      simp at hok
    exact Or.inr ⟨hne, Or.inr (Or.inl ⟨x, hx, htok, hEm, hAn⟩)⟩
  · obtain ⟨hAn, hEn⟩ := hgap
    refine Or.inr ⟨hne, Or.inr (Or.inr ⟨hAn, hEn, ?_⟩)⟩
    rcases hpre : "<em>".data.isPrefixOf t with _ | _
    · rfl
    · have hok := hem hpre
      rw [emTokOk, hEn] at hok
      exact absurd hok (by simp)

/-! ## Decode behaviour of the encoder's built nodes -/

theorem descListByTag_append (tag : String) :
    ∀ (l1 l2 : List XmlNode),
      XmlNode.descListByTag tag (l1 ++ l2)
        = XmlNode.descListByTag tag l1 ++ XmlNode.descListByTag tag l2 := by
  intro l1 l2
  induction l1 with
  | nil => rfl
  | cons c cs ih =>
    rw [List.cons_append, descListByTag_cons, descListByTag_cons, ih]
    simp [List.append_assoc]

mutual

theorem appendStyleNode_desc (tag : String) (htag : tag ≠ "w:rStyle") :
    ∀ (n : XmlNode),
      (appendStyleNode n).1.tagName = n.tagName ∧
      (XmlNode.descByTag tag (appendStyleNode n).1 = []
        ↔ XmlNode.descByTag tag n = [])
  | .text s => ⟨rfl, Iff.rfl⟩
  | .elem t a ch => by
    rw [appendStyleNode]
    by_cases ht : t = "w:rPr"
    · rw [if_pos ht]
      refine ⟨rfl, ?_⟩
      have hsty : XmlNode.descListByTag tag [refRStyle] = [] := by
        rw [descListByTag_cons]
        rw [show XmlNode.descByTag tag refRStyle = [] from rfl]
        rw [show XmlNode.descListByTag tag ([] : List XmlNode) = [] from rfl]
        dsimp only [refRStyle]
        rw [if_neg (fun hx => htag hx.symm)]
        rfl
      rw [show XmlNode.descByTag tag (.elem t a (ch ++ [refRStyle]))
          = XmlNode.descListByTag tag (ch ++ [refRStyle]) from rfl]
      rw [descListByTag_append, hsty, List.append_nil]
      exact Iff.rfl
    · rw [if_neg ht]
      rcases hch : appendStyleList ch with ⟨ch', found⟩
      have hih := appendStyleList_desc tag htag ch
      rw [hch] at hih
      dsimp only at hih
      exact ⟨rfl, hih⟩

theorem appendStyleList_desc (tag : String) (htag : tag ≠ "w:rStyle") :
    ∀ (cs : List XmlNode),
      (XmlNode.descListByTag tag (appendStyleList cs).1 = []
        ↔ XmlNode.descListByTag tag cs = [])
  | [] => Iff.rfl
  | c :: cs => by
    rw [appendStyleList]
    rcases hc : appendStyleNode c with ⟨c', found⟩
    have hihc := appendStyleNode_desc tag htag c
    rw [hc] at hihc
    dsimp only at hihc
    obtain ⟨htagc, hdescc⟩ := hihc
    cases found with
    | true =>
      dsimp only
      rw [descListByTag_cons, descListByTag_cons]
      simp only [List.append_eq_nil]
      rcases c with ⟨tc, ac, chc⟩ | sc
      · obtain ⟨ac', chc', rfl⟩ : ∃ ac' chc', c' = XmlNode.elem tc ac' chc' := by
          rw [appendStyleNode] at hc
          by_cases htc : tc = "w:rPr"
          · rw [if_pos htc] at hc
            cases hc
            exact ⟨_, _, rfl⟩
          · rw [if_neg htc] at hc
            rcases happ : appendStyleList chc with ⟨chc0, fnd⟩
            rw [happ] at hc
            dsimp only at hc
            cases hc
            exact ⟨_, _, rfl⟩
        dsimp only
        by_cases htc : tc = tag
        · rw [if_pos htc, if_pos htc]
          simp
        · rw [if_neg htc, if_neg htc, hdescc]
      · rw [appendStyleNode] at hc
        injection hc with h1 h2
        exact absurd h2 (by decide)
    | false =>
      dsimp only
      rcases hcs : appendStyleList cs with ⟨cs', found'⟩
      have hihs := appendStyleList_desc tag htag cs
      rw [hcs] at hihs
      dsimp only at hihs
      dsimp only
      rw [descListByTag_cons, descListByTag_cons]
      simp only [List.append_eq_nil]
      rw [hihs]

end

theorem restyleRef_props {r : XmlNode} (ht : r.tagName = "w:r")
    (hr : (r.descByTag "w:endnoteRef").isEmpty = false) :
    (restyleRef r).tagName = "w:r" ∧
      ((restyleRef r).descByTag "w:endnoteRef").isEmpty = false := by
  rcases r with ⟨t, a, ch⟩ | s
  · rw [XmlNode.tagName] at ht
    subst ht
    rw [restyleRef]
    split
    · refine ⟨rfl, ?_⟩
      rw [show XmlNode.descByTag "w:endnoteRef" (.elem "w:r" a (newRefRPr :: ch))
          = XmlNode.descListByTag "w:endnoteRef" ch from rfl]
      exact hr
    · split
      · exact ⟨rfl, hr⟩
      · refine ⟨rfl, ?_⟩
        have hiff := appendStyleList_desc "w:endnoteRef" (by decide) ch
        rw [show XmlNode.descByTag "w:endnoteRef"
            (.elem "w:r" a (appendStyleList ch).1)
            = XmlNode.descListByTag "w:endnoteRef" (appendStyleList ch).1
            from rfl]
        rcases hemp : XmlNode.descListByTag "w:endnoteRef" (appendStyleList ch).1 with _ | ⟨y, ys⟩
        · exfalso
          have := hiff.mp hemp
          rw [show XmlNode.descByTag "w:endnoteRef" (.elem "w:r" a ch)
              = XmlNode.descListByTag "w:endnoteRef" ch from rfl] at hr
          rw [this] at hr
          simp at hr
        · rfl
  · rw [XmlNode.tagName] at ht
    exact absurd ht (by decide)

theorem processChildren_cons_elem_skip (rd : List (String × String))
    {t : String} (a : List (String × String)) (ch : List XmlNode)
    (h1 : t ≠ "w:hyperlink") (h2 : t ≠ "w:r") (rest : List XmlNode) :
    processChildren rd (.elem t a ch :: rest) = processChildren rd rest := by
  rw [processChildren, if_neg (by simpa using h1), if_neg (by simpa using h2)]

theorem processChildren_cons_refrun (rd : List (String × String))
    {node : XmlNode} (ht : node.tagName = "w:r")
    (hr : (node.descByTag "w:endnoteRef").isEmpty = false)
    (rest : List XmlNode) :
    processChildren rd (node :: rest) = processChildren rd rest := by
  rcases node with ⟨t, a, ch⟩ | s
  · rw [XmlNode.tagName] at ht
    subst ht
    rw [processChildren, if_neg (by decide), if_pos rfl, if_neg (by simp [hr])]
  · rw [XmlNode.tagName] at ht
    exact absurd ht (by decide)

theorem processChildren_cons_run (rd : List (String × String))
    {node : XmlNode} (ht : node.tagName = "w:r")
    (hne : (node.descByTag "w:endnoteRef").isEmpty = true)
    {txt : String} (hrt : runText node = .ok txt) (htxt : ¬(txt = ""))
    {rest : List XmlNode} {es : List ChildEmit}
    (h : processChildren rd rest = .ok es) :
    processChildren rd (node :: rest)
      = .ok (.run txt (runItalic node) :: es) := by
  rcases node with ⟨t, a, ch⟩ | s
  · rw [XmlNode.tagName] at ht
    subst ht
    rw [processChildren, if_neg (by decide), if_pos rfl, if_pos hne, hrt]
    dsimp only
    rw [h]
    dsimp only
    rw [if_neg htxt]
  · rw [XmlNode.tagName] at ht
    exact absurd ht (by decide)

theorem runText_textRun (content : List Char) (ital : Bool) :
    runText (textRun content ital) = .ok (String.mk content) := by
  cases ital
  · rw [show runText (textRun content false)
        = Except.ok (String.mk (content ++ [])) from rfl, List.append_nil]
  · rw [show runText (textRun content true)
        = Except.ok (String.mk (content ++ [])) from rfl, List.append_nil]

theorem runItalic_textRun (content : List Char) (ital : Bool) :
    runItalic (textRun content ital) = ital := by
  cases ital <;> rfl

theorem textRun_tag (content : List Char) (ital : Bool) :
    (textRun content ital).tagName = "w:r" := rfl

theorem textRun_no_ref (content : List Char) (ital : Bool) :
    ((textRun content ital).descByTag "w:endnoteRef").isEmpty = true := by
  cases ital <;> rfl

theorem processChildren_cons_textRun (rd : List (String × String))
    (content : List Char) (ital : Bool) {rest : List XmlNode}
    {es : List ChildEmit} (hc : content ≠ [])
    (h : processChildren rd rest = .ok es) :
    processChildren rd (textRun content ital :: rest)
      = .ok (.run (String.mk content) ital :: es) := by
  have htxt : ¬(String.mk content = "") := by
    intro hx
    exact hc (by simpa [String.ext_iff] using hx)
  have := processChildren_cons_run rd (textRun_tag content ital)
    (textRun_no_ref content ital) (runText_textRun content ital) htxt h
  rw [this, runItalic_textRun]

theorem processChildren_cons_pPr (rd : List (String × String))
    (rest : List XmlNode) :
    processChildren rd (pPrEndnoteText :: rest) = processChildren rd rest := by
  rw [pPrEndnoteText]
  exact processChildren_cons_elem_skip rd _ _ (by decide) (by decide) rest

theorem processChildren_cons_space (rd : List (String × String))
    {rest : List XmlNode} {es : List ChildEmit}
    (h : processChildren rd rest = .ok es) :
    processChildren rd (spaceRun :: rest) = .ok (.run " " false :: es) := by
  have := processChildren_cons_run rd (show spaceRun.tagName = "w:r" from rfl)
    (show (spaceRun.descByTag "w:endnoteRef").isEmpty = true from rfl)
    (show runText spaceRun = .ok " " from rfl) (by decide) h
  rw [this]
  rfl

theorem processChildren_cons_hyperlink (rd : List (String × String))
    (rid : String) (txt : List Char) {rest : List XmlNode}
    {es : List ChildEmit} (h : processChildren rd rest = .ok es) :
    processChildren rd (hyperlinkNode rid txt :: rest)
      = .ok (.link (dictGet rd rid "#") [String.mk txt] :: es) := by
  rw [hyperlinkNode, processChildren, if_pos rfl]
  rw [show runTexts (XmlNode.descByTag "w:r"
      (.elem "w:hyperlink" [("r:id", rid)]
        [.elem "w:r" []
          [.elem "w:rPr" []
            [.elem "w:rStyle" [("w:val", "Hyperlink")] [],
             .elem "w:color" [("w:val", "0000FF")] [],
             .elem "w:u" [("w:val", "single")] []],
           .elem "w:t" [] [.text (String.mk txt)]]]))
      = Except.ok [String.mk (txt ++ [])] from rfl]
  rw [List.append_nil]
  dsimp only
  rw [h]
  dsimp only
  rw [show (XmlNode.getAttr (.elem "w:hyperlink" [("r:id", rid)]
      [.elem "w:r" []
        [.elem "w:rPr" []
          [.elem "w:rStyle" [("w:val", "Hyperlink")] [],
           .elem "w:color" [("w:val", "0000FF")] [],
           .elem "w:u" [("w:val", "single")] []],
         .elem "w:t" [] [.text (String.mk txt)]]]) "r:id") = rid from rfl]

/-! ## Relationship-state invariants across the encode loop -/

theorem foldl_load_ge :
    ∀ (es : List RelEntry) (a : Nat),
      a ≤ es.foldl (fun acc e =>
        match firstDigitRun e.rId.data with
        | some k => max acc (k + 1)
        | none => acc) a := by
  intro es
  induction es with
  | nil => intro a; exact Nat.le_refl a
  | cons e es ih =>
    intro a
    rw [List.foldl_cons]
    refine Nat.le_trans ?_ (ih _)
    rcases firstDigitRun e.rId.data with _ | k
    · exact Nat.le_refl a
    · exact Nat.le_max_left _ _

theorem foldl_load_bound :
    ∀ (es : List RelEntry) (a : Nat) (e : RelEntry), e ∈ es →
      ∀ k, firstDigitRun e.rId.data = some k →
        k < es.foldl (fun acc e =>
          match firstDigitRun e.rId.data with
          | some k => max acc (k + 1)
          | none => acc) a := by
  intro es
  induction es with
  | nil => intro a e he; cases he
  | cons e0 es ih =>
    intro a e he k hk
    rw [List.foldl_cons]
    rcases List.mem_cons.mp he with rfl | hmem
    · rw [hk]
      refine Nat.lt_of_lt_of_le ?_ (foldl_load_ge es _)
      exact Nat.lt_of_lt_of_le (Nat.lt_succ_self k) (Nat.le_max_right _ _)
    · exact ih _ e hmem k hk

theorem load_digit_bound (file : Option (List RelEntry)) :
    ∀ e ∈ (RelationshipManager.load file).relationships, ∀ k,
      firstDigitRun e.rId.data = some k →
        k < (RelationshipManager.load file).next_id := by
  cases file with
  | none => intro e he; cases he
  | some es => exact fun e he k hk => foldl_load_bound es 1 e he k hk

theorem get_or_create_spec (rs : RelState) (url : String)
    (hnd : (rs.relationships.map RelEntry.rId).Nodup)
    (hbd : ∀ e ∈ rs.relationships, ∀ k,
      firstDigitRun e.rId.data = some k → k < rs.next_id) :
    (∃ e ∈ (rs.get_or_create_hyperlink url).2.relationships,
        e.rId = (rs.get_or_create_hyperlink url).1 ∧ e.target = url ∧
        pyEndsWith e.relType "/hyperlink" = true) ∧
    (∃ extra, (rs.get_or_create_hyperlink url).2.relationships
        = rs.relationships ++ extra) ∧
    (((rs.get_or_create_hyperlink url).2.relationships.map RelEntry.rId).Nodup) ∧
    (∀ e ∈ (rs.get_or_create_hyperlink url).2.relationships, ∀ k,
      firstDigitRun e.rId.data = some k →
        k < (rs.get_or_create_hyperlink url).2.next_id) ∧
    ((rs.get_or_create_hyperlink url).2.relsFile
        = some (rs.get_or_create_hyperlink url).2.relationships ∨
      (rs.get_or_create_hyperlink url).2 = rs) := by
  rw [RelState.get_or_create_hyperlink]
  have htyH : pyEndsWith hyperlinkType "/hyperlink" = true := by decide
  rcases hf : rs.relationships.find? (relMatches url) with _ | rel
  · dsimp only
    have hfresh : ("rId" ++ String.mk (natDec rs.next_id))
        ∉ rs.relationships.map RelEntry.rId := by
      intro hmem
      rcases List.mem_map.mp hmem with ⟨e, he, heq⟩
      have := hbd e he rs.next_id (by rw [heq]; exact firstDigitRun_rId _)
      exact absurd this (Nat.lt_irrefl _)
    refine ⟨⟨⟨"rId" ++ String.mk (natDec rs.next_id), hyperlinkType, url,
        "External"⟩, List.mem_append_right _ (List.mem_singleton.mpr rfl),
        rfl, rfl, htyH⟩,
      ⟨[⟨"rId" ++ String.mk (natDec rs.next_id), hyperlinkType, url,
        "External"⟩], rfl⟩, ?_, ?_, Or.inl rfl⟩
    · rw [List.map_append]
      rw [List.nodup_append]
      refine ⟨hnd, List.nodup_singleton _, ?_⟩
      intro a ha hb
      rcases List.mem_singleton.mp hb with rfl
      exact hfresh ha
    · intro e he k hk
      rcases List.mem_append.mp he with hm | hm
      · exact Nat.lt_succ_of_lt (hbd e hm k hk)
      · rcases List.mem_singleton.mp hm with rfl
        have : firstDigitRun ("rId" ++ String.mk (natDec rs.next_id)).data
            = some rs.next_id := firstDigitRun_rId _
        rw [this] at hk
        cases hk
        exact Nat.lt_succ_self _
  · dsimp only
    have hmem := List.mem_of_find?_eq_some hf
    have hmat := List.find?_some hf
    rw [relMatches] at hmat
    obtain ⟨ht, hty⟩ := (Bool.and_eq_true _ _).mp hmat
    refine ⟨⟨rel, hmem, rfl, of_decide_eq_true ht, hty⟩,
      ⟨[], (List.append_nil _).symm⟩, hnd, hbd, Or.inr rfl⟩

theorem save_fields (rs : RelState) :
    (rs.save).relationships = rs.relationships ∧
    (rs.save).next_id = rs.next_id ∧
    (rs.save).relsFile = some rs.relationships := ⟨rfl, rfl, rfl⟩

/-! ## Token-level round trip -/

theorem tokA_ahref (u x : List Char) :
    "<a href=".data.isPrefixOf (tokA u x) = true := by
  rw [show tokA u x
      = "<a href=".data ++ ('"' :: (u ++ ("\">".data ++ (x ++ "</a>".data))))
      from by rw [tokA]; simp]
  exact isPrefixOf_of_append _ _

theorem ahref_em_false (l : List Char) :
    "<a href=".data.isPrefixOf ('<' :: 'e' :: l) = false := rfl

theorem pySlice_tokE (x : List Char) : pySlice4m5 (tokE x) = x := by
  rw [pySlice4m5]
  have h1 : (tokE x).drop 4 = x ++ "</em>".data := by
    rw [show tokE x = "<em>".data ++ (x ++ "</em>".data) from by rw [tokE]; simp]
    rw [show (4 : Nat) = ("<em>".data).length from rfl, List.drop_left]
  have h2 : (tokE x).length - 9 = x.length := by
    rw [tokE]
    simp only [List.length_append]
    rw [show ("<em>".data).length = 4 from rfl,
      show ("</em>".data).length = 5 from rfl]
    omega
  rw [h1, h2, List.take_left]

theorem render_link (u x : List Char) :
    ChildEmit.render (.link (String.mk u) [String.mk x]) = tokA u x := by
  rw [ChildEmit.render, tokA]
  simp

theorem render_run_em (x : List Char) :
    ChildEmit.render (.run (String.mk x) true) = tokE x := by
  rw [ChildEmit.render, tokE]
  simp

theorem render_run_plain (t : List Char) :
    ChildEmit.render (.run (String.mk t) false) = t := by
  rw [ChildEmit.render]
  simp

/-- The core round-trip of the token loop: on `TokOk` tokens, the built
nodes decode (under any hyperlink lookup consistent with the final
relationship table) to emissions whose rendered concatenation is exactly
the concatenation of the tokens; the relationship invariants are
maintained and the table only grows, with the file synchronized whenever
anything was written. -/
theorem processTokens_roundtrip :
    ∀ (toks : List (List Char)) (rs : RelState),
      (∀ t ∈ toks, TokOk t) →
      (rs.relationships.map RelEntry.rId).Nodup →
      (∀ e ∈ rs.relationships, ∀ k,
        firstDigitRun e.rId.data = some k → k < rs.next_id) →
      (((processTokens rs toks).2.relationships.map RelEntry.rId).Nodup) ∧
      (∀ e ∈ (processTokens rs toks).2.relationships, ∀ k,
        firstDigitRun e.rId.data = some k →
          k < (processTokens rs toks).2.next_id) ∧
      (∃ extra, (processTokens rs toks).2.relationships
          = rs.relationships ++ extra) ∧
      ((processTokens rs toks).2.relsFile
          = some (processTokens rs toks).2.relationships ∨
        (processTokens rs toks).2 = rs) ∧
      (∀ rd',
        (∀ e ∈ (processTokens rs toks).2.relationships,
          pyEndsWith e.relType "/hyperlink" = true →
          dictGet rd' e.rId "#" = e.target) →
        ∃ emits, processChildren rd' (processTokens rs toks).1 = .ok emits ∧
          emits.flatMap ChildEmit.render = toks.flatten) := by
  intro toks
  induction toks with
  | nil =>
    intro rs _ hnd hbd
    exact ⟨hnd, hbd, ⟨[], (List.append_nil _).symm⟩, Or.inr rfl,
      fun rd' _ => ⟨[], rfl, rfl⟩⟩
  | cons t toks ih =>
    intro rs htoks hnd hbd
    have htokT := htoks t (List.mem_cons_self _ _)
    have htoksRest := fun t' ht' => htoks t' (List.mem_cons_of_mem _ ht')
    by_cases hemp : t.isEmpty
    · have ht0 : t = [] := by
        cases t with
        | nil => rfl
        | cons c cs => simp at hemp
      rw [show processTokens rs (t :: toks) = processTokens rs toks from by
        rw [processTokens, if_pos hemp]]
      obtain ⟨c1, c2, c3, c4, c5⟩ := ih rs htoksRest hnd hbd
      refine ⟨c1, c2, c3, c4, fun rd' hrd => ?_⟩
      obtain ⟨emits, he, hr⟩ := c5 rd' hrd
      exact ⟨emits, he, by rw [hr, ht0, List.flatten_cons, List.nil_append]⟩
    · have hne : t ≠ [] := fun h => by rw [h] at hemp; exact hemp rfl
      rcases htokT with rfl | ⟨hent, hclass⟩
      · exact absurd rfl hne
      rcases hclass with ⟨u0, x0, htok, hmA⟩ | ⟨x0, hx0, htok, hmE, hmAn⟩ |
        ⟨hmAn, hmEn, hemf⟩
      · -- hyperlink token
        have hstep : processTokens rs (t :: toks)
            = (hyperlinkNode (rs.get_or_create_hyperlink (String.mk u0)).1 x0
                :: (processTokens
                  (rs.get_or_create_hyperlink (String.mk u0)).2.save toks).1,
               (processTokens
                  (rs.get_or_create_hyperlink (String.mk u0)).2.save toks).2) := by
          rw [processTokens, if_neg hemp]
          dsimp only
          rw [hent]
          rw [if_pos (by rw [htok]; exact tokA_ahref u0 x0)]
          rw [hmA]
        obtain ⟨hee, hex1, hnd1, hbd1, _⟩ :=
          get_or_create_spec rs (String.mk u0) hnd hbd
        obtain ⟨c1, c2, c3, c4, c5⟩ :=
          ih (rs.get_or_create_hyperlink (String.mk u0)).2.save htoksRest
            hnd1 hbd1
        rw [hstep]
        refine ⟨c1, c2, ?_, ?_, fun rd' hrd => ?_⟩
        · obtain ⟨e1, he1⟩ := hex1
          obtain ⟨e2, he2⟩ := c3
          exact ⟨e1 ++ e2, by
            rw [he2, show ((rs.get_or_create_hyperlink
                (String.mk u0)).2.save).relationships
              = (rs.get_or_create_hyperlink (String.mk u0)).2.relationships
              from rfl, he1, List.append_assoc]⟩
        · rcases c4 with hc | hc
          · exact Or.inl hc
          · left
            rw [hc]
            rfl
        · obtain ⟨emits, he, hr⟩ := c5 rd' hrd
          obtain ⟨e0, he0, hid0, htg0, hty0⟩ := hee
          have he0F : e0 ∈ (processTokens
              (rs.get_or_create_hyperlink (String.mk u0)).2.save toks).2.relationships := by
            obtain ⟨e2, he2⟩ := c3
            rw [he2]
            exact List.mem_append_left _ he0
          have hdict := hrd e0 he0F hty0
          refine ⟨.link (dictGet rd'
              (rs.get_or_create_hyperlink (String.mk u0)).1 "#")
              [String.mk x0] :: emits,
            processChildren_cons_hyperlink rd' _ x0 he, ?_⟩
          rw [List.flatMap_cons, hr]
          rw [← hid0, hdict, htg0]
          rw [render_link, List.flatten_cons, htok]
      · -- emphasis token
        have hstep : processTokens rs (t :: toks)
            = (textRun x0 true :: (processTokens rs toks).1,
               (processTokens rs toks).2) := by
          rw [processTokens, if_neg hemp]
          dsimp only
          rw [hent]
          rw [if_neg (by rw [htok, tokE_shape]; simp [ahref_em_false])]
          rw [if_pos (by rw [htok]; exact tokE_isPrefix_em x0)]
          rw [htok, pySlice_tokE]
          have hip : ('<' :: 'e' :: 'm' :: '>' :: []).isPrefixOf (tokE x0)
              = true := tokE_isPrefix_em x0
          rw [hip]
        obtain ⟨c1, c2, c3, c4, c5⟩ := ih rs htoksRest hnd hbd
        rw [hstep]
        refine ⟨c1, c2, c3, c4, fun rd' hrd => ?_⟩
        obtain ⟨emits, he, hr⟩ := c5 rd' hrd
        refine ⟨.run (String.mk x0) true :: emits,
          processChildren_cons_textRun rd' x0 true hx0 he, ?_⟩
        rw [List.flatMap_cons, hr, render_run_em, List.flatten_cons, htok]
      · -- literal text token
        have hstep : processTokens rs (t :: toks)
            = (textRun t false :: (processTokens rs toks).1,
               (processTokens rs toks).2) := by
          rw [processTokens, if_neg hemp]
          dsimp only
          rw [hent]
          have hemf2 : ('<' :: 'e' :: 'm' :: '>' :: []).isPrefixOf t
              = false := hemf
          by_cases hpa : "<a href=".data.isPrefixOf t = true
          · rw [if_pos hpa, hmAn]
            dsimp only
            rw [hemf2]
            rfl
          · rw [if_neg (by simpa using hpa)]
            rw [hemf2]
            rfl
        obtain ⟨c1, c2, c3, c4, c5⟩ := ih rs htoksRest hnd hbd
        rw [hstep]
        refine ⟨c1, c2, c3, c4, fun rd' hrd => ?_⟩
        obtain ⟨emits, he, hr⟩ := c5 rd' hrd
        refine ⟨.run (String.mk t) false :: emits,
          processChildren_cons_textRun rd' t false hne he, ?_⟩
        rw [List.flatMap_cons, hr, render_run_plain, List.flatten_cons]

/-- **C9**: when no endnote element in the tree has the requested id (and
the two input files parse; the document node itself is not a note),
`write_updated_note` is a no-op: it raises no error and returns the
session state with both files' contents unchanged. -/
theorem structural_absence_frame (u : UserData) (dom : XmlNode)
    (nid html : String)
    (hdom : u.endnotes = some (some dom))
    (hrels : u.rels ≠ some none)
    (hdoc : dom.tagName ≠ "w:endnote")
    (hmatch : ∀ en ∈ dom.descByTag "w:endnote", en.getAttr "w:id" ≠ nid) :
    write_updated_note (some u) nid html = .ok (some u) := by
  have henc : ∀ rs, encodeNode nid html dom rs = (dom, rs) := by
    intro rs
    apply encodeNode_noMatch
    intro en hen
    rw [descListByTag_singleton] at hen
    rcases dom with ⟨t, a, cs⟩ | s
    · have ht : ¬t = "w:endnote" := by simpa [XmlNode.tagName] using hdoc
      dsimp only at hen
      rw [if_neg ht, List.nil_append] at hen
      exact hmatch en hen
    · simp [XmlNode.descByTag] at hen
  obtain ⟨uf, ue, ur⟩ := u
  simp only at hdom
  subst hdom
  rcases ur with _ | ⟨_ | es⟩
  · rw [write_updated_note]
    dsimp only
    rw [henc]
    rfl
  · exact absurd rfl hrels
  · rw [write_updated_note]
    dsimp only
    rw [henc]
    rfl

/-- Witness for `structural_absence_frame`: a concrete document with one
note of id `1`, encode requested for id `5`. -/
theorem structural_absence_frame_witness :
    write_updated_note
      (some ⟨"word/endnotes.xml",
        some (some (.elem "w:document" []
          [.elem "w:endnote" [("w:id", "1")]
            [.elem "w:p" [] [.elem "w:r" [] [.elem "w:t" [] [.text "x"]]]]])),
        none⟩) "5" "<em>new</em>"
      = .ok (some ⟨"word/endnotes.xml",
        some (some (.elem "w:document" []
          [.elem "w:endnote" [("w:id", "1")]
            [.elem "w:p" [] [.elem "w:r" [] [.elem "w:t" [] [.text "x"]]]]])),
        none⟩) := by
  apply structural_absence_frame
  · rfl
  · intro hc
    cases hc
  · decide
  · intro en hen
    have : en = XmlNode.elem "w:endnote" [("w:id", "1")]
        [.elem "w:p" [] [.elem "w:r" [] [.elem "w:t" [] [.text "x"]]]] := by
      rcases hen with _ | ⟨_, h⟩
      · rfl
      · rcases h with _ | ⟨_, h⟩
    rw [this]
    decide

/-- **C6**: a token that begins like a hyperlink tag but fails the exact
pattern (for example the unterminated `<a href="x">broken`) is emitted by
the encoder as a plain run holding the literal (entity-unescaped) token
text — neither an error nor a dropped token; and `write_updated_note`
returns without error for any markup whenever its two input files parse. -/
theorem malformed_token_safety (rs : RelState) (html : String) (t : List Char)
    (hmem : t ∈ pySplitCap html.data) (hne : t ≠ [])
    (hpre : "<a href=".data.isPrefixOf (pyUnescape t) = true)
    (hfail : matchA (pyUnescape t) = none) :
    textRun (pyUnescape t) false ∈ (processTokens rs (pySplitCap html.data)).1 ∧
    (∀ (u : UserData) (dom : XmlNode) (nid : String),
      u.endnotes = some (some dom) → u.rels ≠ some none →
      ∃ r, write_updated_note (some u) nid html = .ok r) := by
  refine ⟨processTokens_plain_mem _ rs t hmem hne hpre hfail, ?_⟩
  intro u dom nid hdom hrels
  obtain ⟨uf, ue, ur⟩ := u
  simp only at hdom
  subst hdom
  rcases ur with _ | ⟨_ | es⟩
  · exact ⟨_, rfl⟩
  · exact absurd rfl hrels
  · exact ⟨_, rfl⟩

/-- Witness for `malformed_token_safety` at the spec's own example
`<a href="x">broken`. -/
theorem malformed_token_safety_witness :
    textRun (pyUnescape "<a href=\"x\">broken".data) false ∈
      (processTokens (RelationshipManager.load none)
        (pySplitCap ("<a href=\"x\">broken" : String).data)).1 :=
  (malformed_token_safety (RelationshipManager.load none)
    "<a href=\"x\">broken" "<a href=\"x\">broken".data
    (by decide) (by decide) (by decide) (by decide)).1

/-- **C1** — counterexample.  Decode emits run text verbatim, but encode
unescapes `&amp;`: a note whose text is the literal `&amp;` decodes to the
markup `&amp;`, re-encoding that unchanged markup stores `&`, and the
second decode yields `&` — not the same string, and not a whitespace
difference. -/
theorem round_trip_counterexample :
    extract_endnotes_xml (some ⟨"word/endnotes.xml",
        some (some (.elem "w:document" [] [.elem "w:endnote" [("w:id", "1")]
          [.elem "w:p" [] [.elem "w:r" [] [.elem "w:t" [] [.text "&amp;"]]]]])),
        none⟩)
      = .ok [⟨"1", "&amp;", "&amp;"⟩] ∧
    (∃ ud', write_updated_note (some ⟨"word/endnotes.xml",
        some (some (.elem "w:document" [] [.elem "w:endnote" [("w:id", "1")]
          [.elem "w:p" [] [.elem "w:r" [] [.elem "w:t" [] [.text "&amp;"]]]]])),
        none⟩) "1" "&amp;" = .ok (some ud') ∧
      extract_endnotes_xml (some ud') = .ok [⟨"1", "&", "&"⟩]) ∧
    ("&" : String) ≠ "&amp;" := by
  refine ⟨rfl, ⟨_, rfl, ?_⟩, by decide⟩
  rfl


/-! ## Document-level assembly for the amended round trip -/

theorem dropWhile_self (p : Char → Bool) :
    ∀ l : List Char, (l.dropWhile p).dropWhile p = l.dropWhile p := by
  intro l
  induction l with
  | nil => rfl
  | cons c cs ih =>
    rw [List.dropWhile_cons]
    by_cases hc : p c = true
    · rw [if_pos hc]
      exact ih
    · rw [if_neg hc, List.dropWhile_cons, if_neg hc]

theorem dropWhile_head_false (p : Char → Bool) :
    ∀ (l : List Char) (c : Char) (cs : List Char),
      l.dropWhile p = c :: cs → p c = false := by
  intro l
  induction l with
  | nil => intro c cs h; cases h
  | cons a l ih =>
    intro c cs h
    rw [List.dropWhile_cons] at h
    by_cases ha : p a = true
    · rw [if_pos ha] at h
      exact ih c cs h
    · rw [if_neg ha] at h
      cases h
      exact Bool.eq_false_iff.mpr ha

theorem dropWhile_reverse_dropWhile (p : Char → Bool) (c : Char)
    (cs : List Char) (hc : p c = false) :
    ((List.dropWhile p (c :: cs).reverse).reverse).dropWhile p
      = (List.dropWhile p (c :: cs).reverse).reverse := by
  have hcn : ¬(p c = true) := by rw [hc]; exact Bool.false_ne_true
  rw [List.reverse_cons, List.dropWhile_append]
  by_cases he : (List.dropWhile p cs.reverse).isEmpty
  · rw [if_pos he]
    rw [show List.dropWhile p [c] = [c] from by
      rw [List.dropWhile_cons, if_neg hcn]]
    rw [List.reverse_singleton, List.dropWhile_cons, if_neg hcn]
  · rw [if_neg he, List.reverse_append, List.reverse_singleton,
      List.singleton_append, List.dropWhile_cons, if_neg hcn]

theorem pyStripL_idem (l : List Char) : pyStripL (pyStripL l) = pyStripL l := by
  rw [pyStripL, pyStripL]
  rcases hA : l.dropWhile pyIsSpace with _ | ⟨c, cs⟩
  · rfl
  · have hc := dropWhile_head_false pyIsSpace l c cs hA
    rw [dropWhile_reverse_dropWhile pyIsSpace c cs hc]
    rw [List.reverse_reverse, dropWhile_self]

theorem pyStripL_cons_space (l : List Char) :
    pyStripL (' ' :: l) = pyStripL l := by
  rw [pyStripL, pyStripL, List.dropWhile_cons,
    if_pos (show pyIsSpace ' ' = true from rfl)]

theorem dictGet_buildRelDict {es : List RelEntry}
    (hnd : (es.map RelEntry.rId).Nodup) {e : RelEntry} (he : e ∈ es)
    (hty : pyEndsWith e.relType "/hyperlink" = true) :
    dictGet (buildRelDict es) e.rId "#" = e.target := by
  have hmem : (e.rId, e.target) ∈ buildRelDict es := by
    rw [buildRelDict]
    exact List.mem_map.mpr ⟨e, List.mem_filter.mpr ⟨he, hty⟩, rfl⟩
  rw [dictGet]
  rcases hf : (buildRelDict es).reverse.find? (fun kv => kv.1 = e.rId)
    with _ | kv
  · exfalso
    have := List.find?_eq_none.mp hf (e.rId, e.target)
      (List.mem_reverse.mpr hmem)
    simp at this
  · have hkv := List.mem_of_find?_eq_some hf
    rw [List.mem_reverse] at hkv
    have hpred := List.find?_some hf
    have hk1 : kv.1 = e.rId := by simpa using hpred
    rw [buildRelDict] at hkv
    rcases List.mem_map.mp hkv with ⟨e2, he2, heq⟩
    have he2mem : e2 ∈ es := (List.mem_filter.mp he2).1
    have hee : e2 = e := by
      refine List.inj_on_of_nodup_map hnd he2mem he ?_
      rw [show e2.rId = kv.1 from by rw [← heq], hk1]
    rw [hf]
    rw [hee] at heq
    rw [← heq]

mutual

theorem descByTag_shape (tag : String) :
    ∀ (n : XmlNode) (x : XmlNode), x ∈ XmlNode.descByTag tag n →
      ∃ a cs, x = XmlNode.elem tag a cs
  | .text s, x, hx => by
    rw [show XmlNode.descByTag tag (.text s) = [] from rfl] at hx
    cases hx
  | .elem t a cs, x, hx => by
    rw [show XmlNode.descByTag tag (.elem t a cs)
        = XmlNode.descListByTag tag cs from rfl] at hx
    exact descListByTag_shape tag cs x hx

theorem descListByTag_shape (tag : String) :
    ∀ (cs : List XmlNode) (x : XmlNode), x ∈ XmlNode.descListByTag tag cs →
      ∃ a ch, x = XmlNode.elem tag a ch
  | [], x, hx => by
    rw [show XmlNode.descListByTag tag [] = [] from rfl] at hx
    cases hx
  | c :: cs, x, hx => by
    rw [descListByTag_cons] at hx
    rcases List.mem_append.mp hx with h1 | h2
    · rcases List.mem_append.mp h1 with hs | hd
      · rcases c with ⟨tc, ac, chc⟩ | sc
        · dsimp only at hs
          by_cases htc : tc = tag
          · rw [if_pos htc] at hs
            rcases List.mem_singleton.mp hs with rfl
            exact ⟨ac, chc, by rw [htc]⟩
          · rw [if_neg htc] at hs
            cases hs
        · dsimp only at hs
          cases hs
      · exact descByTag_shape tag c x hd
    · exact descListByTag_shape tag cs x h2

end

mutual

theorem descByTag_trans (t1 t2 : String) :
    ∀ (n x y : XmlNode), x ∈ XmlNode.descByTag t1 n →
      y ∈ XmlNode.descByTag t2 x → y ∈ XmlNode.descByTag t2 n
  | .text s, x, y, hx, _ => by
    rw [show XmlNode.descByTag t1 (.text s) = [] from rfl] at hx
    cases hx
  | .elem t a cs, x, y, hx, hy => by
    rw [show XmlNode.descByTag t1 (.elem t a cs)
        = XmlNode.descListByTag t1 cs from rfl] at hx
    rw [show XmlNode.descByTag t2 (.elem t a cs)
        = XmlNode.descListByTag t2 cs from rfl]
    exact descListByTag_trans t1 t2 cs x y hx hy

theorem descListByTag_trans (t1 t2 : String) :
    ∀ (cs : List XmlNode) (x y : XmlNode), x ∈ XmlNode.descListByTag t1 cs →
      y ∈ XmlNode.descByTag t2 x → y ∈ XmlNode.descListByTag t2 cs
  | [], x, y, hx, _ => by
    rw [show XmlNode.descListByTag t1 [] = [] from rfl] at hx
    cases hx
  | c :: cs, x, y, hx, hy => by
    rw [descListByTag_cons] at hx
    rw [descListByTag_cons]
    rcases List.mem_append.mp hx with h1 | h2
    · rcases List.mem_append.mp h1 with hs | hd
      · have hxc : x = c := by
          rcases c with ⟨tc, ac, chc⟩ | sc
          · dsimp only at hs
            by_cases htc : tc = t1
            · rw [if_pos htc] at hs
              exact List.mem_singleton.mp hs
            · rw [if_neg htc] at hs
              cases hs
          · dsimp only at hs
            cases hs
        subst hxc
        exact List.mem_append_left _ (List.mem_append_right _ hy)
      · exact List.mem_append_left _
          (List.mem_append_right _ (descByTag_trans t1 t2 c x y hd hy))
    · exact List.mem_append_right _ (descListByTag_trans t1 t2 cs x y h2 hy)

end

theorem descListByTag_nil (tag : String) :
    ∀ (cs : List XmlNode),
      (∀ c ∈ cs, c.tagName ≠ tag ∧ XmlNode.descByTag tag c = []) →
      XmlNode.descListByTag tag cs = [] := by
  intro cs
  induction cs with
  | nil => intro _; rfl
  | cons c cs ih =>
    intro h
    obtain ⟨ht, hd⟩ := h c (List.mem_cons_self _ _)
    rw [descListByTag_cons, hd, ih (fun x hx => h x (List.mem_cons_of_mem _ hx))]
    rcases c with ⟨tc, ac, chc⟩ | sc
    · dsimp only
      rw [if_neg (fun hh => ht (by rw [XmlNode.tagName]; exact hh))]
      simp
    · simp

theorem endnotes_desc (l : List XmlNode)
    (h : ∀ en ∈ l, ∃ a cs, en = XmlNode.elem "w:endnote" a cs ∧
      XmlNode.descListByTag "w:endnote" cs = []) :
    XmlNode.descListByTag "w:endnote" l = l := by
  induction l with
  | nil => rfl
  | cons en l ih =>
    obtain ⟨a, cs, rfl, hcs⟩ := h _ (List.mem_cons_self _ _)
    rw [descListByTag_cons]
    rw [show XmlNode.descByTag "w:endnote" (.elem "w:endnote" a cs)
        = XmlNode.descListByTag "w:endnote" cs from rfl, hcs]
    rw [ih (fun x hx => h x (List.mem_cons_of_mem _ hx))]
    dsimp only
    rw [if_pos rfl]
    simp


mutual

theorem styleWalkNode_endnote :
    ∀ c : XmlNode, XmlNode.descListByTag "w:endnote" [c] = [] →
      XmlNode.descListByTag "w:endnote" [styleWalkNode c] = []
  | .text s, h => h
  | .elem t a cs, h => by
    rw [descListByTag_singleton] at h
    rcases List.append_eq_nil.mp h with ⟨h1, h2⟩
    have ht : t ≠ "w:endnote" := by
      intro hteq
      dsimp only at h1
      rw [if_pos hteq] at h1
      cases h1
    have h2a : XmlNode.descListByTag "w:endnote" cs = [] := h2
    rw [styleWalkNode]
    by_cases htp : t = "w:p"
    · rw [if_pos htp]
      by_cases hsty : hasPStyle (.elem t a cs)
      · rw [if_pos hsty]
        rw [descListByTag_singleton]
        dsimp only
        rw [if_neg ht]
        rw [show XmlNode.descByTag "w:endnote" (.elem t a (styleWalkList cs))
            = XmlNode.descListByTag "w:endnote" (styleWalkList cs) from rfl]
        rw [styleWalkList_endnote cs h2a]
        rfl
      · rw [if_neg hsty]
        rw [descListByTag_singleton]
        dsimp only
        rw [if_neg ht]
        rw [show XmlNode.descByTag "w:endnote"
              (.elem t a (pPrEndnoteText :: styleWalkList cs))
            = XmlNode.descListByTag "w:endnote" (styleWalkList cs) from rfl]
        rw [styleWalkList_endnote cs h2a]
        rfl
    · rw [if_neg htp]
      rw [descListByTag_singleton]
      dsimp only
      rw [if_neg ht]
      rw [show XmlNode.descByTag "w:endnote" (.elem t a (styleWalkList cs))
          = XmlNode.descListByTag "w:endnote" (styleWalkList cs) from rfl]
      rw [styleWalkList_endnote cs h2a]
      rfl

theorem styleWalkList_endnote :
    ∀ cs : List XmlNode, XmlNode.descListByTag "w:endnote" cs = [] →
      XmlNode.descListByTag "w:endnote" (styleWalkList cs) = []
  | [], h => h
  | c :: cs, h => by
    rw [styleWalkList]
    rw [descListByTag_cons] at h
    rcases List.append_eq_nil.mp h with ⟨h12, h3⟩
    rcases List.append_eq_nil.mp h12 with ⟨h1, h2⟩
    have hone : XmlNode.descListByTag "w:endnote" [c] = [] := by
      rw [descListByTag_singleton, h1, h2]
      rfl
    have hm := styleWalkNode_endnote c hone
    rw [descListByTag_singleton] at hm
    rcases List.append_eq_nil.mp hm with ⟨hm1, hm2⟩
    rw [descListByTag_cons, hm1, hm2, styleWalkList_endnote cs h3]
    rfl

end

theorem encParaList_cons_eq (pNew : XmlNode) (c : XmlNode) (cs : List XmlNode)
    (found : Bool) :
    encParaList pNew (c :: cs) found
      = ((encParaNode pNew c found).1
          :: (encParaList pNew cs (encParaNode pNew c found).2).1,
         (encParaList pNew cs (encParaNode pNew c found).2).2) := rfl

theorem encParaNode_elem_eq (pNew : XmlNode) (t : String)
    (a : List (String × String)) (ch : List XmlNode) (found : Bool)
    (ht : ¬t = "w:p") :
    encParaNode pNew (.elem t a ch) found
      = (.elem t a (encParaList pNew ch found).1,
         (encParaList pNew ch found).2) := by
  rw [encParaNode, if_neg ht]

mutual

theorem encParaNode_true (pNew : XmlNode) :
    ∀ (n : XmlNode), (encParaNode pNew n true).2 = true ∧
      (XmlNode.descListByTag "w:endnote" [n] = [] →
        XmlNode.descListByTag "w:endnote" [(encParaNode pNew n true).1] = [])
  | .text s => ⟨rfl, fun h => h⟩
  | .elem t a ch => by
    by_cases htp : t = "w:p"
    · rw [show encParaNode pNew (.elem t a ch) true
          = (styleWalkNode (.elem t a ch), true) from by
        rw [encParaNode, if_pos htp, if_pos rfl]]
      exact ⟨rfl, fun h => styleWalkNode_endnote _ h⟩
    · rw [encParaNode_elem_eq pNew t a ch true htp]
      obtain ⟨hfd, hdesc⟩ := encParaList_true pNew ch
      refine ⟨hfd, fun h => ?_⟩
      rw [descListByTag_singleton] at h
      rcases List.append_eq_nil.mp h with ⟨h1, h2⟩
      rw [descListByTag_singleton]
      dsimp only at h1 ⊢
      by_cases hte : t = "w:endnote"
      · rw [if_pos hte] at h1
        cases h1
      · rw [if_neg hte]
        rw [show XmlNode.descByTag "w:endnote"
              (.elem t a (encParaList pNew ch true).1)
            = XmlNode.descListByTag "w:endnote" (encParaList pNew ch true).1
            from rfl]
        rw [hdesc h2]
        rfl

theorem encParaList_true (pNew : XmlNode) :
    ∀ (cs : List XmlNode), (encParaList pNew cs true).2 = true ∧
      (XmlNode.descListByTag "w:endnote" cs = [] →
        XmlNode.descListByTag "w:endnote" (encParaList pNew cs true).1 = [])
  | [] => ⟨rfl, fun h => h⟩
  | c :: cs => by
    rw [encParaList_cons_eq]
    obtain ⟨hfd1, hd1⟩ := encParaNode_true pNew c
    rw [hfd1]
    obtain ⟨hfd2, hd2⟩ := encParaList_true pNew cs
    refine ⟨hfd2, fun h => ?_⟩
    rw [descListByTag_cons] at h
    rcases List.append_eq_nil.mp h with ⟨h12, h3⟩
    rcases List.append_eq_nil.mp h12 with ⟨h1, h2⟩
    have hone : XmlNode.descListByTag "w:endnote" [c] = [] := by
      rw [descListByTag_singleton, h1, h2]
      rfl
    have hm := hd1 hone
    rw [descListByTag_singleton] at hm
    rcases List.append_eq_nil.mp hm with ⟨hm1, hm2⟩
    rw [descListByTag_cons, hm1, hm2, hd2 h3]
    rfl

end

mutual

theorem encParaNode_noop (pNew : XmlNode) :
    ∀ (n : XmlNode), n.tagName ≠ "w:p" → XmlNode.descByTag "w:p" n = [] →
      encParaNode pNew n false = (n, false)
  | .text s, _, _ => rfl
  | .elem t a ch, ht, hd => by
    rw [encParaNode]
    rw [if_neg (fun hh => ht (by rw [XmlNode.tagName]; exact hh))]
    have hch : XmlNode.descListByTag "w:p" ch = [] := hd
    rw [encParaList_noop pNew ch hch]

theorem encParaList_noop (pNew : XmlNode) :
    ∀ (cs : List XmlNode), XmlNode.descListByTag "w:p" cs = [] →
      encParaList pNew cs false = (cs, false)
  | [], _ => rfl
  | c :: cs, h => by
    rw [descListByTag_cons] at h
    rcases List.append_eq_nil.mp h with ⟨h12, h3⟩
    rcases List.append_eq_nil.mp h12 with ⟨h1, h2⟩
    have hct : c.tagName ≠ "w:p" := by
      rcases c with ⟨tc, ac, chc⟩ | sc
      · intro hh
        rw [XmlNode.tagName] at hh
        dsimp only at h1
        rw [if_pos hh] at h1
        cases h1
      · intro hh
        rw [XmlNode.tagName] at hh
        exact absurd hh.symm (by decide)
    rw [encParaList, encParaNode_noop pNew c hct h2]
    dsimp only
    rw [encParaList_noop pNew cs h3]

end

theorem encodeList_append (nid html : String) :
    ∀ (l1 l2 : List XmlNode) (rs : RelState),
      encodeList nid html (l1 ++ l2) rs
        = ((encodeList nid html l1 rs).1 ++
            (encodeList nid html l2 (encodeList nid html l1 rs).2).1,
           (encodeList nid html l2 (encodeList nid html l1 rs).2).2) := by
  intro l1
  induction l1 with
  | nil => intro l2 rs; rfl
  | cons c l1 ih =>
    intro l2 rs
    rw [List.cons_append, encodeList]
    rcases hc : encodeNode nid html c rs with ⟨c2, rs1⟩
    dsimp only
    rw [ih l2 rs1]
    rw [show encodeList nid html (c :: l1) rs
        = (c2 :: (encodeList nid html l1 rs1).1,
           (encodeList nid html l1 rs1).2) from by
      rw [encodeList, hc]]
    rw [List.cons_append]


theorem encParaNode_wp_eq (pNew : XmlNode) (a : List (String × String))
    (ch : List XmlNode) :
    encParaNode pNew (.elem "w:p" a ch) false = (pNew, true) := by
  rw [encParaNode, if_pos rfl, if_neg Bool.false_ne_true]

mutual

theorem encParaNode_first (pNew : XmlNode)
    (hpNew : ∃ qa qc, pNew = XmlNode.elem "w:p" qa qc)
    (hpe : XmlNode.descByTag "w:endnote" pNew = []) :
    ∀ (n : XmlNode), n.tagName ≠ "w:p" →
      ∀ (q : XmlNode) (qs : List XmlNode), XmlNode.descByTag "w:p" n = q :: qs →
      ∃ a2 ch2, encParaNode pNew n false = (.elem n.tagName a2 ch2, true) ∧
        (∃ rest, XmlNode.descListByTag "w:p" ch2 = pNew :: rest) ∧
        (XmlNode.descByTag "w:endnote" n = [] →
          XmlNode.descListByTag "w:endnote" ch2 = [])
  | .text s, _, q, qs, hq => by
    rw [show XmlNode.descByTag "w:p" (.text s) = [] from rfl] at hq
    cases hq
  | .elem t a ch, ht, q, qs, hq => by
    have ht2 : ¬t = "w:p" := fun hh => ht (by rw [XmlNode.tagName]; exact hh)
    have hch : XmlNode.descListByTag "w:p" ch = q :: qs := hq
    obtain ⟨ch2, hstep, hhead, hend⟩ :=
      encParaList_first pNew hpNew hpe ch q qs hch
    refine ⟨a, ch2, ?_, hhead, fun he => hend he⟩
    rw [encParaNode_elem_eq pNew t a ch false ht2, hstep]
    rfl

theorem encParaList_first (pNew : XmlNode)
    (hpNew : ∃ qa qc, pNew = XmlNode.elem "w:p" qa qc)
    (hpe : XmlNode.descByTag "w:endnote" pNew = []) :
    ∀ (cs : List XmlNode) (q : XmlNode) (qs : List XmlNode),
      XmlNode.descListByTag "w:p" cs = q :: qs →
      ∃ cs2, encParaList pNew cs false = (cs2, true) ∧
        (∃ rest, XmlNode.descListByTag "w:p" cs2 = pNew :: rest) ∧
        (XmlNode.descListByTag "w:endnote" cs = [] →
          XmlNode.descListByTag "w:endnote" cs2 = [])
  | [], q, qs, hq => by
    rw [show XmlNode.descListByTag "w:p" ([] : List XmlNode) = [] from rfl] at hq
    cases hq
  | c :: cs, q, qs, hq => by
    rw [descListByTag_cons] at hq
    rcases c with ⟨tc, ac, chc⟩ | sc
    · by_cases htc : tc = "w:p"
      · subst htc
        obtain ⟨qa, qc, hpq⟩ := hpNew
        refine ⟨pNew :: (encParaList pNew cs true).1, ?_, ?_, fun he => ?_⟩
        · rw [encParaList_cons_eq, encParaNode_wp_eq pNew ac chc]
          dsimp only
          rw [(encParaList_true pNew cs).1]
        · refine ⟨XmlNode.descByTag "w:p" pNew
            ++ XmlNode.descListByTag "w:p" (encParaList pNew cs true).1, ?_⟩
          rw [descListByTag_cons]
          subst hpq
          dsimp only
          rw [if_pos rfl]
          simp [List.append_assoc]
        · rw [descListByTag_cons] at he
          rcases List.append_eq_nil.mp he with ⟨h12, h3⟩
          rcases List.append_eq_nil.mp h12 with ⟨h1, h2⟩
          rw [descListByTag_cons]
          have hcs3 := (encParaList_true pNew cs).2 h3
          subst hpq
          dsimp only
          rw [if_neg (show ¬("w:p" = "w:endnote") by decide)]
          rw [show XmlNode.descByTag "w:endnote" (XmlNode.elem "w:p" qa qc)
              = XmlNode.descListByTag "w:endnote" qc from rfl] at hpe
          rw [show XmlNode.descByTag "w:endnote" (XmlNode.elem "w:p" qa qc)
              = XmlNode.descListByTag "w:endnote" qc from rfl, hpe, hcs3]
          rfl
      · have hself0 : (match (XmlNode.elem tc ac chc) with
            | XmlNode.elem t _ _ =>
              if t = "w:p" then [XmlNode.elem tc ac chc] else []
            | XmlNode.text _ => []) = [] := by
          dsimp only
          rw [if_neg htc]
        rw [hself0] at hq
        rcases hpc : XmlNode.descListByTag "w:p" chc with _ | ⟨q1, qs1⟩
        · have hq2 : XmlNode.descListByTag "w:p" cs = q :: qs := by
            have hdc : XmlNode.descByTag "w:p" (.elem tc ac chc) = [] := hpc
            rw [hdc] at hq
            rw [List.nil_append, List.nil_append] at hq
            exact hq
          obtain ⟨cs2, hstep, hhead, hend⟩ :=
            encParaList_first pNew hpNew hpe cs q qs hq2
          refine ⟨.elem tc ac chc :: cs2, ?_, ?_, fun he => ?_⟩
          · rw [encParaList_cons_eq,
              encParaNode_noop pNew (.elem tc ac chc) (fun hh => htc hh) hpc]
            dsimp only
            rw [hstep]
          · obtain ⟨rest, hrest⟩ := hhead
            refine ⟨rest, ?_⟩
            rw [descListByTag_cons, hself0,
              show XmlNode.descByTag "w:p" (.elem tc ac chc) = [] from hpc,
              hrest]
            rfl
          · rw [descListByTag_cons] at he
            rcases List.append_eq_nil.mp he with ⟨h12, h3⟩
            rcases List.append_eq_nil.mp h12 with ⟨h1, h2⟩
            rw [descListByTag_cons, h1, h2, hend h3]
            rfl
        · have hnodetag : (XmlNode.elem tc ac chc).tagName ≠ "w:p" :=
            fun hh => htc hh
          have hdesc : XmlNode.descByTag "w:p" (.elem tc ac chc) = q1 :: qs1 :=
            hpc
          obtain ⟨a2, ch2, hstep, hhead, hend⟩ :=
            encParaNode_first pNew hpNew hpe (.elem tc ac chc) hnodetag
              q1 qs1 hdesc
          refine ⟨.elem tc a2 ch2 :: (encParaList pNew cs true).1,
            ?_, ?_, fun he => ?_⟩
          · rw [encParaList_cons_eq, hstep]
            dsimp only
            rw [(encParaList_true pNew cs).1]
            rfl
          · obtain ⟨rest, hrest⟩ := hhead
            refine ⟨rest
              ++ XmlNode.descListByTag "w:p" (encParaList pNew cs true).1, ?_⟩
            rw [descListByTag_cons]
            have hself2 : (match (XmlNode.elem tc a2 ch2) with
                | XmlNode.elem t _ _ =>
                  if t = "w:p" then [XmlNode.elem tc a2 ch2] else []
                | XmlNode.text _ => []) = [] := by
              dsimp only
              rw [if_neg htc]
            rw [hself2,
              show XmlNode.descByTag "w:p" (.elem tc a2 ch2)
                = XmlNode.descListByTag "w:p" ch2 from rfl,
              hrest]
            simp [List.append_assoc]
          · rw [descListByTag_cons] at he
            rcases List.append_eq_nil.mp he with ⟨h12, h3⟩
            rcases List.append_eq_nil.mp h12 with ⟨h1, h2⟩
            have htce : ¬tc = "w:endnote" := by
              intro hh
              dsimp only at h1
              rw [if_pos hh] at h1
              cases h1
            rw [descListByTag_cons]
            have hself3 : (match (XmlNode.elem tc a2 ch2) with
                | XmlNode.elem t _ _ =>
                  if t = "w:endnote" then [XmlNode.elem tc a2 ch2] else []
                | XmlNode.text _ => []) = [] := by
              dsimp only
              rw [if_neg htce]
            rw [hself3,
              show XmlNode.descByTag "w:endnote" (.elem tc a2 ch2)
                = XmlNode.descListByTag "w:endnote" ch2 from rfl,
              hend h2, (encParaList_true pNew cs).2 h3]
            rfl
    · have hq2 : XmlNode.descListByTag "w:p" cs = q :: qs := hq
      obtain ⟨cs2, hstep, hhead, hend⟩ :=
        encParaList_first pNew hpNew hpe cs q qs hq2
      refine ⟨.text sc :: cs2, ?_, ?_, fun he => ?_⟩
      · rw [encParaList_cons_eq,
          show encParaNode pNew (.text sc) false = (.text sc, false) from rfl]
        dsimp only
        rw [hstep]
      · obtain ⟨rest, hrest⟩ := hhead
        refine ⟨rest, ?_⟩
        rw [descListByTag_cons, hrest]
        rfl
      · rw [descListByTag_cons] at he
        rcases List.append_eq_nil.mp he with ⟨h12, h3⟩
        rw [descListByTag_cons, hend h3]
        rfl

end


theorem processChildren_indep (rd rd2 : List (String × String)) :
    ∀ (cs : List XmlNode) (es : List ChildEmit),
      processChildren rd cs = .ok es →
      ∃ es2, processChildren rd2 cs = .ok es2 := by
  intro cs
  induction cs with
  | nil => intro es _; exact ⟨[], rfl⟩
  | cons node rest ih =>
    intro es h
    rcases node with ⟨tag, a, ch⟩ | str
    · rw [processChildren] at h ⊢
      by_cases h1 : tag = "w:hyperlink"
      · rw [if_pos h1] at h ⊢
        rcases hrt : runTexts (XmlNode.descByTag "w:r" (.elem tag a ch))
          with e | ts
        all_goals (try rw [hrt] at h); (try rw [hrt])
        · exact absurd h (by simp)
        · rcases hrec : processChildren rd rest with e | es0
          all_goals try rw [hrec] at h
          · exact absurd h (by simp)
          · obtain ⟨es2, h2⟩ := ih es0 hrec
            rw [h2]
            exact ⟨_, rfl⟩
      · rw [if_neg h1] at h ⊢
        by_cases h2t : tag = "w:r"
        · rw [if_pos h2t] at h ⊢
          by_cases href :
              (XmlNode.descByTag "w:endnoteRef" (.elem tag a ch)).isEmpty
          · rw [if_pos href] at h ⊢
            rcases hrt : runText (.elem tag a ch) with e | t
            all_goals (try rw [hrt] at h); (try rw [hrt])
            · exact absurd h (by simp)
            · rcases hrec : processChildren rd rest with e | es0
              all_goals try rw [hrec] at h
              · exact absurd h (by simp)
              · obtain ⟨es2, h2⟩ := ih es0 hrec
                rw [h2]
                dsimp only
                split
                · exact ⟨_, rfl⟩
                · exact ⟨_, rfl⟩
          · rw [if_neg href] at h ⊢
            exact ih es h
        · rw [if_neg h2t] at h ⊢
          exact ih es h
    · rw [processChildren] at h ⊢
      exact ih es h

theorem decodeNote_indep (rd rd2 : List (String × String)) (i : String)
    (en : XmlNode) {m : NoteRec} (h : decodeNote rd i en = .ok m) :
    ∃ m2, decodeNote rd2 i en = .ok m2 ∧ m2.id = m.id := by
  rw [decodeNote] at h ⊢
  rcases hp : en.descByTag "w:p" with _ | ⟨p, prest⟩
  all_goals (try rw [hp] at h); (try rw [hp])
  all_goals dsimp only at h ⊢
  · exact absurd h (by simp)
  · rcases hpc : processChildren rd p.children with e | emits
    all_goals try rw [hpc] at h
    · exact absurd h (by simp)
    · obtain ⟨emits2, h2⟩ := processChildren_indep rd rd2 p.children emits hpc
      rw [h2]
      cases h
      exact ⟨_, rfl, rfl⟩

theorem extractLoop_indep (rd rd2 : List (String × String)) :
    ∀ (l : List XmlNode) (ns : List NoteRec),
      extractLoop rd l = .ok ns →
      ∃ ns2, extractLoop rd2 l = .ok ns2 ∧
        ns2.map NoteRec.id = ns.map NoteRec.id := by
  intro l
  induction l with
  | nil => intro ns h; cases h; exact ⟨[], rfl, rfl⟩
  | cons en rest ih =>
    intro ns h
    rw [extractLoop] at h ⊢
    by_cases hc : en.getAttr "w:id" ≠ "" ∧ en.getAttr "w:id" ≠ "-1" ∧
        en.getAttr "w:id" ≠ "0"
    · rw [if_pos hc] at h ⊢
      rcases hd : decodeNote rd (en.getAttr "w:id") en with e | n0
      all_goals try rw [hd] at h
      · exact absurd h (by simp)
      · rcases hr : extractLoop rd rest with e | ns0
        all_goals try rw [hr] at h
        · exact absurd h (by simp)
        · cases h
          obtain ⟨n2, hn2, hid2⟩ := decodeNote_indep rd rd2 _ en hd
          obtain ⟨ns2, hns2, hids⟩ := ih ns0 hr
          rw [hn2, hns2]
          exact ⟨n2 :: ns2, rfl,
            by rw [List.map_cons, List.map_cons, hid2, hids]⟩
    · rw [if_neg hc] at h ⊢
      exact ih ns h

theorem extractLoop_append_split (rd : List (String × String)) :
    ∀ (l1 l2 : List XmlNode) (ns : List NoteRec),
      extractLoop rd (l1 ++ l2) = .ok ns →
      ∃ ns1 ns2, extractLoop rd l1 = .ok ns1 ∧ extractLoop rd l2 = .ok ns2 ∧
        ns = ns1 ++ ns2 := by
  intro l1
  induction l1 with
  | nil => intro l2 ns h; exact ⟨[], ns, rfl, h, rfl⟩
  | cons en rest ih =>
    intro l2 ns h
    rw [List.cons_append, extractLoop] at h
    rw [extractLoop]
    by_cases hc : en.getAttr "w:id" ≠ "" ∧ en.getAttr "w:id" ≠ "-1" ∧
        en.getAttr "w:id" ≠ "0"
    · rw [if_pos hc] at h ⊢
      rcases hd : decodeNote rd (en.getAttr "w:id") en with e | n0
      all_goals (try rw [hd] at h); (try rw [hd])
      · exact absurd h (by simp)
      · rcases hr : extractLoop rd (rest ++ l2) with e | ns0
        all_goals try rw [hr] at h
        · exact absurd h (by simp)
        · cases h
          obtain ⟨ns1, ns2, h1, h2, rfl⟩ := ih l2 ns0 hr
          rw [h1]
          exact ⟨n0 :: ns1, ns2, rfl, h2, rfl⟩
    · rw [if_neg hc] at h ⊢
      exact ih l2 ns h

theorem extractLoop_append_mk (rd : List (String × String)) :
    ∀ (l1 l2 : List XmlNode) (ns1 ns2 : List NoteRec),
      extractLoop rd l1 = .ok ns1 → extractLoop rd l2 = .ok ns2 →
      extractLoop rd (l1 ++ l2) = .ok (ns1 ++ ns2) := by
  intro l1
  induction l1 with
  | nil =>
    intro l2 ns1 ns2 h1 h2
    cases h1
    exact h2
  | cons en rest ih =>
    intro l2 ns1 ns2 h1 h2
    rw [extractLoop] at h1
    rw [List.cons_append, extractLoop]
    by_cases hc : en.getAttr "w:id" ≠ "" ∧ en.getAttr "w:id" ≠ "-1" ∧
        en.getAttr "w:id" ≠ "0"
    · rw [if_pos hc] at h1 ⊢
      rcases hd : decodeNote rd (en.getAttr "w:id") en with e | n0
      all_goals (try rw [hd] at h1); (try rw [hd])
      · exact absurd h1 (by simp)
      · rcases hr : extractLoop rd rest with e | ns0
        all_goals try rw [hr] at h1
        · exact absurd h1 (by simp)
        · cases h1
          rw [ih l2 ns0 ns2 hr h2]
          rfl
    · rw [if_neg hc] at h1 ⊢
      exact ih l2 ns1 ns2 h1 h2

theorem extractLoop_mem_src (rd : List (String × String)) :
    ∀ (l : List XmlNode) (ns : List NoteRec), extractLoop rd l = .ok ns →
      ∀ n ∈ ns, ∃ en ∈ l, en.getAttr "w:id" = n.id ∧
        decodeNote rd (en.getAttr "w:id") en = .ok n := by
  intro l
  induction l with
  | nil =>
    intro ns h n hn
    cases h
    cases hn
  | cons en rest ih =>
    intro ns h n hn
    rw [extractLoop] at h
    by_cases hc : en.getAttr "w:id" ≠ "" ∧ en.getAttr "w:id" ≠ "-1" ∧
        en.getAttr "w:id" ≠ "0"
    · rw [if_pos hc] at h
      rcases hd : decodeNote rd (en.getAttr "w:id") en with e | n0
      all_goals try rw [hd] at h
      · exact absurd h (by simp)
      · rcases hr : extractLoop rd rest with e | ns0
        all_goals try rw [hr] at h
        · exact absurd h (by simp)
        · cases h
          cases hn with
          | head =>
            exact ⟨en, List.mem_cons_self _ _, (decodeNote_id hd).symm, hd⟩
          | tail _ hmem =>
            obtain ⟨en2, hen2, ha, hdec⟩ := ih ns0 hr n hmem
            exact ⟨en2, List.mem_cons_of_mem _ hen2, ha, hdec⟩
    · rw [if_neg hc] at h
      obtain ⟨en2, hen2, ha, hdec⟩ := ih ns h n hn
      exact ⟨en2, List.mem_cons_of_mem _ hen2, ha, hdec⟩

theorem keyNotes_of_ids :
    ∀ {ns ms : List NoteRec} {ks : List (Int × NoteRec)},
      ns.map NoteRec.id = ms.map NoteRec.id → keyNotes ns = .ok ks →
      ∃ ks2, keyNotes ms = .ok ks2 := by
  intro ns
  induction ns with
  | nil =>
    intro ms ks hids _
    cases ms with
    | nil => exact ⟨[], rfl⟩
    | cons m ms => simp at hids
  | cons n ns ih =>
    intro ms ks hids h
    cases ms with
    | nil => simp at hids
    | cons m ms =>
      rw [List.map_cons, List.map_cons] at hids
      injection hids with hid hids2
      rw [keyNotes] at h ⊢
      rcases hk : pyInt n.id with _ | k
      all_goals try rw [hk] at h
      · exact absurd h (by simp)
      · rcases hks : keyNotes ns with e | ks0
        all_goals try rw [hks] at h
        · exact absurd h (by simp)
        · obtain ⟨ks2, h2⟩ := ih hids2 hks
          rw [← hid, hk, h2]
          exact ⟨_, rfl⟩

theorem sortNotes_of_ids {ns ms out : List NoteRec}
    (hids : ns.map NoteRec.id = ms.map NoteRec.id)
    (h : sortNotes ns = .ok out) : ∃ out2, sortNotes ms = .ok out2 := by
  rw [sortNotes] at h ⊢
  rcases hk : keyNotes ns with e | ks
  all_goals try rw [hk] at h
  · exact absurd h (by simp)
  · obtain ⟨ks2, h2⟩ := keyNotes_of_ids hids hk
    rw [h2]
    exact ⟨_, rfl⟩

theorem sortNotes_perm {ns out : List NoteRec} (h : sortNotes ns = .ok out) :
    out.Perm ns := by
  rw [sortNotes] at h
  rcases hk : keyNotes ns with e | ks
  all_goals try rw [hk] at h
  · exact absurd h (by simp)
  · cases h
    have hp := (insSortAsc_perm ks).map Prod.snd
    rw [keyNotes_snd hk] at hp
    exact hp


theorem descListByTag_cons_nil (tag : String) (c : XmlNode)
    (cs : List XmlNode) (h1 : c.tagName ≠ tag)
    (h2 : XmlNode.descByTag tag c = [])
    (h3 : XmlNode.descListByTag tag cs = []) :
    XmlNode.descListByTag tag (c :: cs) = [] := by
  rw [descListByTag_cons, h2, h3]
  rcases c with ⟨tc, ac, chc⟩ | sc
  · dsimp only
    rw [if_neg (fun hh => h1 (by rw [XmlNode.tagName]; exact hh))]
    rfl
  · rfl

theorem textRun_no_endnote (content : List Char) (ital : Bool) :
    XmlNode.descByTag "w:endnote" (textRun content ital) = [] := by
  cases ital <;> rfl

theorem hyperlinkNode_no_endnote (rid : String) (txt : List Char) :
    XmlNode.descByTag "w:endnote" (hyperlinkNode rid txt) = [] := rfl

theorem hyperlinkNode_tag (rid : String) (txt : List Char) :
    (hyperlinkNode rid txt).tagName = "w:hyperlink" := rfl

theorem processTokens_shape :
    ∀ (toks : List (List Char)) (rs : RelState) (n : XmlNode),
      n ∈ (processTokens rs toks).1 →
      (∃ c i, n = textRun c i) ∨ (∃ rid txt, n = hyperlinkNode rid txt) := by
  intro toks
  induction toks with
  | nil => intro rs n hn; cases hn
  | cons t rest ih =>
    intro rs n hn
    rw [processTokens] at hn
    by_cases hemp : t.isEmpty
    · rw [if_pos hemp] at hn
      exact ih rs n hn
    · rw [if_neg hemp] at hn
      dsimp only at hn
      by_cases hpre : "<a href=".data.isPrefixOf (pyUnescape t) = true
      · rw [if_pos hpre] at hn
        rcases hm : matchA (pyUnescape t) with _ | ⟨url, txt, r⟩
        all_goals try rw [hm] at hn
        all_goals dsimp only at hn
        · rcases List.mem_cons.mp hn with rfl | hmem
          · exact Or.inl ⟨_, _, rfl⟩
          · exact ih rs n hmem
        · have hn2 : n ∈ hyperlinkNode
              (rs.get_or_create_hyperlink (String.mk url)).1 txt ::
              (processTokens
                (rs.get_or_create_hyperlink (String.mk url)).2.save rest).1 :=
            hn
          rcases List.mem_cons.mp hn2 with rfl | hmem
          · exact Or.inr ⟨_, _, rfl⟩
          · exact ih _ n hmem
      · rw [if_neg hpre] at hn
        dsimp only at hn
        rcases List.mem_cons.mp hn with rfl | hmem
        · exact Or.inl ⟨_, _, rfl⟩
        · exact ih rs n hmem

theorem processTokens_endnote (toks : List (List Char)) (rs : RelState) :
    XmlNode.descListByTag "w:endnote" (processTokens rs toks).1 = [] := by
  refine descListByTag_nil "w:endnote" _ (fun c hc => ?_)
  rcases processTokens_shape toks rs c hc with ⟨cc, i, rfl⟩ | ⟨rid, txt, rfl⟩
  · exact ⟨by rw [textRun_tag]; decide, textRun_no_endnote cc i⟩
  · exact ⟨by rw [hyperlinkNode_tag]; decide, hyperlinkNode_no_endnote rid txt⟩

theorem restyleRef_no_endnote {r : XmlNode}
    (h : XmlNode.descByTag "w:endnote" r = []) :
    XmlNode.descByTag "w:endnote" (restyleRef r) = [] := by
  rcases r with ⟨t, a, ch⟩ | sc
  · rw [restyleRef]
    split
    · rw [show XmlNode.descByTag "w:endnote" (.elem t a (newRefRPr :: ch))
          = XmlNode.descListByTag "w:endnote" (newRefRPr :: ch) from rfl]
      rw [descListByTag_cons]
      rw [show XmlNode.descByTag "w:endnote" newRefRPr = [] from rfl]
      have hch : XmlNode.descListByTag "w:endnote" ch = [] := h
      rw [hch]
      rfl
    · split
      · exact h
      · rw [show XmlNode.descByTag "w:endnote"
              (.elem t a (appendStyleList ch).1)
            = XmlNode.descListByTag "w:endnote" (appendStyleList ch).1
            from rfl]
        exact (appendStyleList_desc "w:endnote" (by decide) ch).mpr h
  · exact h

/-- Rewrite of one well-formed endnote element with already-stripped,
token-safe markup: the element keeps its tag and attributes, acquires no
nested `w:endnote`, the relationship invariants are maintained, and under
any hyperlink lookup consistent with the final table the rewritten element
decodes back to a note whose html is exactly the input markup. -/
theorem rewriteEndnote_roundtrip
    (a0 : List (String × String)) (cs0 : List XmlNode) (html : String)
    (rs : RelState)
    (hcs0 : XmlNode.descListByTag "w:endnote" cs0 = [])
    (hstrip : pyStripL html.data = html.data)
    (htoks : ∀ t ∈ pySplitCap html.data, TokOk t)
    (hnd : (rs.relationships.map RelEntry.rId).Nodup)
    (hbd : ∀ e ∈ rs.relationships, ∀ k,
      firstDigitRun e.rId.data = some k → k < rs.next_id)
    (p : XmlNode) (prest : List XmlNode)
    (hp : XmlNode.descListByTag "w:p" cs0 = p :: prest) :
    ∃ cs1 rsF,
      rewriteEndnote (.elem "w:endnote" a0 cs0) html rs
        = (.elem "w:endnote" a0 cs1, rsF) ∧
      XmlNode.descListByTag "w:endnote" cs1 = [] ∧
      ((rsF.relationships.map RelEntry.rId).Nodup) ∧
      (∃ extra, rsF.relationships = rs.relationships ++ extra) ∧
      (rsF.relsFile = some rsF.relationships ∨ rsF = rs) ∧
      (∀ rd2, (∀ e ∈ rsF.relationships,
          pyEndsWith e.relType "/hyperlink" = true →
          dictGet rd2 e.rId "#" = e.target) →
        ∀ i, ∃ m, decodeNote rd2 i (.elem "w:endnote" a0 cs1) = .ok m ∧
          m.id = i ∧ m.html = html) := by
  have hpmem : p ∈ XmlNode.descListByTag "w:p" cs0 := by
    rw [hp]
    exact List.mem_cons_self _ _
  obtain ⟨pa, pcs, hpshape⟩ := descListByTag_shape "w:p" cs0 p hpmem
  subst hpshape
  obtain ⟨c1, c2, c3, c4, c5⟩ :=
    processTokens_roundtrip (pySplitCap html.data) rs htoks hnd hbd
  rcases hfind : ((XmlNode.elem "w:p" pa pcs).descByTag "w:r").find?
      (fun r => !(r.descByTag "w:endnoteRef").isEmpty) with _ | r
  · -- no reference run: the rebuilt paragraph is pPr plus the token nodes
    have hpe : XmlNode.descByTag "w:endnote"
        ((XmlNode.elem "w:p" pa ([pPrEndnoteText]
          ++ (processTokens rs (pySplitCap html.data)).1)) : XmlNode) = [] := by
      show XmlNode.descListByTag "w:endnote" (pPrEndnoteText
        :: (processTokens rs (pySplitCap html.data)).1) = []
      exact descListByTag_cons_nil "w:endnote" pPrEndnoteText _
        (by rw [show pPrEndnoteText.tagName = "w:pPr" from rfl]; decide)
        rfl (processTokens_endnote _ _)
    obtain ⟨cs1, hstepL, hheadL, hendL⟩ :=
      encParaList_first
        (.elem "w:p" pa ([pPrEndnoteText]
          ++ (processTokens rs (pySplitCap html.data)).1))
        ⟨pa, _, rfl⟩ hpe cs0 (.elem "w:p" pa pcs) prest hp
    have hreb : rebuildPara (.elem "w:p" pa pcs) html rs
        = (.elem "w:p" pa ([pPrEndnoteText]
            ++ (processTokens rs (pySplitCap html.data)).1),
           (processTokens rs (pySplitCap html.data)).2) := by
      rw [rebuildPara]
      rw [hfind]
    have hrwE : rewriteEndnote (.elem "w:endnote" a0 cs0) html rs
        = (.elem "w:endnote" a0 cs1,
           (processTokens rs (pySplitCap html.data)).2) := by
      rw [rewriteEndnote]
      rw [show XmlNode.descByTag "w:p" ((.elem "w:endnote" a0 cs0) : XmlNode)
          = (XmlNode.elem "w:p" pa pcs) :: prest from hp]
      dsimp only
      rw [hreb]
      dsimp only
      rw [hstepL]
    refine ⟨cs1, (processTokens rs (pySplitCap html.data)).2, hrwE,
      hendL hcs0, c1, c3, c4, ?_⟩
    intro rd2 hdict i
    obtain ⟨emits, hemits, hrender⟩ := c5 rd2 hdict
    obtain ⟨rest1, hhead1⟩ := hheadL
    refine ⟨mkNote i emits, ?_, rfl, ?_⟩
    · rw [decodeNote]
      rw [show XmlNode.descByTag "w:p" ((.elem "w:endnote" a0 cs1) : XmlNode)
          = (XmlNode.elem "w:p" pa ([pPrEndnoteText]
              ++ (processTokens rs (pySplitCap html.data)).1)) :: rest1
          from hhead1]
      dsimp only
      rw [show processChildren rd2
            (XmlNode.children (.elem "w:p" pa ([pPrEndnoteText]
              ++ (processTokens rs (pySplitCap html.data)).1)))
          = processChildren rd2 (pPrEndnoteText
              :: (processTokens rs (pySplitCap html.data)).1) from rfl]
      rw [processChildren_cons_pPr, hemits]
    · rw [show (mkNote i emits).html
          = String.mk (pyStripL (emits.flatMap ChildEmit.render)) from rfl]
      rw [hrender, pySplitCap_flatten, hstrip]
  · -- a reference run exists: pPr, restyled run and space precede the tokens
    have hrmem : r ∈ XmlNode.descListByTag "w:r" pcs :=
      List.mem_of_find?_eq_some hfind
    have hrtag : r.tagName = "w:r" := by
      obtain ⟨ra, rc, hrshape⟩ := descListByTag_shape "w:r" pcs r hrmem
      rw [hrshape]
      rfl
    have hrpred := List.find?_some hfind
    have hrref : (r.descByTag "w:endnoteRef").isEmpty = false := by
      simpa using hrpred
    obtain ⟨hrtag2, hrref2⟩ := restyleRef_props hrtag hrref
    have hrend : XmlNode.descByTag "w:endnote" r = [] := by
      rcases hre : XmlNode.descByTag "w:endnote" r with _ | ⟨y, ys⟩
      · rfl
      · exfalso
        have hy : y ∈ XmlNode.descByTag "w:endnote" r := by
          rw [hre]
          exact List.mem_cons_self _ _
        have hy1 : y ∈ XmlNode.descListByTag "w:endnote" pcs :=
          descListByTag_trans "w:r" "w:endnote" pcs r y hrmem hy
        have hy2 : y ∈ XmlNode.descListByTag "w:endnote" cs0 :=
          descListByTag_trans "w:p" "w:endnote" cs0 (.elem "w:p" pa pcs) y
            hpmem hy1
        rw [hcs0] at hy2
        cases hy2
    have hre2 : XmlNode.descByTag "w:endnote" (restyleRef r) = [] :=
      restyleRef_no_endnote hrend
    have hpe : XmlNode.descByTag "w:endnote"
        ((XmlNode.elem "w:p" pa ([pPrEndnoteText, restyleRef r, spaceRun]
          ++ (processTokens rs (pySplitCap html.data)).1)) : XmlNode) = [] := by
      show XmlNode.descListByTag "w:endnote" (pPrEndnoteText :: restyleRef r
        :: spaceRun :: (processTokens rs (pySplitCap html.data)).1) = []
      refine descListByTag_cons_nil "w:endnote" pPrEndnoteText _
        (by rw [show pPrEndnoteText.tagName = "w:pPr" from rfl]; decide)
        rfl ?_
      refine descListByTag_cons_nil "w:endnote" (restyleRef r) _
        (by rw [hrtag2]; decide) hre2 ?_
      exact descListByTag_cons_nil "w:endnote" spaceRun _
        (by rw [show spaceRun.tagName = "w:r" from rfl]; decide)
        rfl (processTokens_endnote _ _)
    obtain ⟨cs1, hstepL, hheadL, hendL⟩ :=
      encParaList_first
        (.elem "w:p" pa ([pPrEndnoteText, restyleRef r, spaceRun]
          ++ (processTokens rs (pySplitCap html.data)).1))
        ⟨pa, _, rfl⟩ hpe cs0 (.elem "w:p" pa pcs) prest hp
    have hreb : rebuildPara (.elem "w:p" pa pcs) html rs
        = (.elem "w:p" pa ([pPrEndnoteText, restyleRef r, spaceRun]
            ++ (processTokens rs (pySplitCap html.data)).1),
           (processTokens rs (pySplitCap html.data)).2) := by
      rw [rebuildPara]
      rw [hfind]
    have hrwE : rewriteEndnote (.elem "w:endnote" a0 cs0) html rs
        = (.elem "w:endnote" a0 cs1,
           (processTokens rs (pySplitCap html.data)).2) := by
      rw [rewriteEndnote]
      rw [show XmlNode.descByTag "w:p" ((.elem "w:endnote" a0 cs0) : XmlNode)
          = (XmlNode.elem "w:p" pa pcs) :: prest from hp]
      dsimp only
      rw [hreb]
      dsimp only
      rw [hstepL]
    refine ⟨cs1, (processTokens rs (pySplitCap html.data)).2, hrwE,
      hendL hcs0, c1, c3, c4, ?_⟩
    intro rd2 hdict i
    obtain ⟨emits, hemits, hrender⟩ := c5 rd2 hdict
    obtain ⟨rest1, hhead1⟩ := hheadL
    refine ⟨mkNote i (.run " " false :: emits), ?_, rfl, ?_⟩
    · rw [decodeNote]
      rw [show XmlNode.descByTag "w:p" ((.elem "w:endnote" a0 cs1) : XmlNode)
          = (XmlNode.elem "w:p" pa ([pPrEndnoteText, restyleRef r, spaceRun]
              ++ (processTokens rs (pySplitCap html.data)).1)) :: rest1
          from hhead1]
      dsimp only
      rw [show processChildren rd2
            (XmlNode.children (.elem "w:p" pa
              ([pPrEndnoteText, restyleRef r, spaceRun]
                ++ (processTokens rs (pySplitCap html.data)).1)))
          = processChildren rd2 (pPrEndnoteText :: restyleRef r :: spaceRun
              :: (processTokens rs (pySplitCap html.data)).1) from rfl]
      rw [processChildren_cons_pPr,
        processChildren_cons_refrun rd2 hrtag2 hrref2,
        processChildren_cons_space rd2 hemits]
    · rw [show (mkNote i (.run " " false :: emits)).html
          = String.mk (pyStripL
              (' ' :: emits.flatMap ChildEmit.render)) from rfl]
      rw [pyStripL_cons_space, hrender, pySplitCap_flatten, hstrip]


theorem encodeList_cons_eq (nid html : String) (c : XmlNode)
    (cs : List XmlNode) (rs : RelState) :
    encodeList nid html (c :: cs) rs
      = ((encodeNode nid html c rs).1
          :: (encodeList nid html cs (encodeNode nid html c rs).2).1,
         (encodeList nid html cs (encodeNode nid html c rs).2).2) := rfl

/-- **C1** (amended): over a well-formed notes part — a non-endnote root
whose endnote children are paragraph wrappers with no nested endnotes and
pairwise distinct ids, together with a relationship file of pairwise
distinct ids — every decoded note whose markup is token-safe (no effective
`&amp;`/`&nbsp;` entity in any token, and every `<em>`-leading token a
complete nonempty emphasis token) survives the round trip: re-encoding the
note with its own unchanged markup succeeds, and decoding the updated
session again yields exactly one note with that id, carrying exactly the
same markup string. -/
theorem round_trip_amended
    (fp : String) (dt : String) (da : List (String × String))
    (ens : List XmlNode) (es : List RelEntry)
    (notes : List NoteRec) (n : NoteRec)
    (hfp : ¬fp = "")
    (hdt : ¬dt = "w:endnote")
    (hens : ∀ en ∈ ens, ∃ a cs, en = XmlNode.elem "w:endnote" a cs ∧
      XmlNode.descListByTag "w:endnote" cs = [])
    (hid : (ens.map (fun en => en.getAttr "w:id")).Nodup)
    (hes : (es.map RelEntry.rId).Nodup)
    (hdec : extract_endnotes_xml
        (some ⟨fp, some (some (.elem dt da ens)), some (some es)⟩)
      = .ok notes)
    (hn : n ∈ notes)
    (hsafe : tokenSafe n.html) :
    ∃ ud2 notes2 m,
      write_updated_note
          (some ⟨fp, some (some (.elem dt da ens)), some (some es)⟩)
          n.id n.html = .ok (some ud2) ∧
      extract_endnotes_xml (some ud2) = .ok notes2 ∧
      notes2.filter (fun m2 => m2.id == n.id) = [m] ∧
      m.html = n.html := by
  -- ## unpack the first decode
  rw [extract_endnotes_xml] at hdec
  dsimp only at hdec
  rw [if_neg hfp] at hdec
  rw [extractCore] at hdec
  rw [show XmlNode.descByTag "w:endnote"
      ((.elem dt da ens) : XmlNode) = ens from endnotes_desc ens hens] at hdec
  rcases hL : extractLoop (buildRelDict es) ens with e | notes0
  all_goals try rw [hL] at hdec
  · exact absurd hdec (by simp)
  have hnmem0 : n ∈ notes0 := sortNotes_mem hdec n hn
  obtain ⟨hnid1, hnid2, hnid3⟩ := extractLoop_ids hL n hnmem0
  obtain ⟨en0, hen0mem, hattr, hdecode⟩ :=
    extractLoop_mem_src (buildRelDict es) ens notes0 hL n hnmem0
  obtain ⟨a0, cs0, rfl, hcs0⟩ := hens en0 hen0mem
  -- ## structure of the note from its decode
  have hdecode2 := hdecode
  rw [decodeNote] at hdecode2
  rcases hP : XmlNode.descByTag "w:p"
      ((.elem "w:endnote" a0 cs0) : XmlNode) with _ | ⟨p, prest⟩
  all_goals try rw [hP] at hdecode2
  all_goals dsimp only at hdecode2
  · exact absurd hdecode2 (by simp)
  rcases hPC : processChildren (buildRelDict es) p.children with e | emits0
  all_goals try rw [hPC] at hdecode2
  all_goals dsimp only at hdecode2
  · exact absurd hdecode2 (by simp)
  have hnEq : mkNote ((XmlNode.elem "w:endnote" a0 cs0).getAttr "w:id")
      emits0 = n := by
    injection hdecode2
  have hstrip : pyStripL n.html.data = n.html.data := by
    rw [← hnEq]
    exact pyStripL_idem _
  have hP2 : XmlNode.descListByTag "w:p" cs0 = p :: prest := hP
  -- ## rewrite of the matching endnote
  have hnd0 : (((RelationshipManager.load (some es)).relationships).map
      RelEntry.rId).Nodup := hes
  have hbd0 := load_digit_bound (some es)
  obtain ⟨cs1, rsF, hrwE, hcs1, hndF, ⟨extra, hextra⟩, hsync, hdec2⟩ :=
    rewriteEndnote_roundtrip a0 cs0 n.html (RelationshipManager.load (some es))
      hcs0 hstrip (pySplitCap_tokOk hsafe) hnd0 hbd0 p prest hP2
  -- ## split the endnote list around the target
  obtain ⟨l1, l2, rfl⟩ := List.append_of_mem hen0mem
  rw [List.map_append, List.map_cons] at hid
  rcases List.nodup_append.mp hid with ⟨hid1, hidc, hdisj⟩
  have hnotin2 : (XmlNode.elem "w:endnote" a0 cs0).getAttr "w:id"
      ∉ l2.map (fun en => en.getAttr "w:id") := (List.nodup_cons.mp hidc).1
  have hnotin1 : (XmlNode.elem "w:endnote" a0 cs0).getAttr "w:id"
      ∉ l1.map (fun en => en.getAttr "w:id") := by
    intro hmem
    exact hdisj hmem (List.mem_cons_self _ _)
  have hne1 : ∀ x ∈ l1, x.getAttr "w:id" ≠ n.id := by
    intro x hx heq
    exact hnotin1 (by rw [← hattr] at heq
                      exact List.mem_map.mpr ⟨x, hx, heq⟩)
  have hne2 : ∀ x ∈ l2, x.getAttr "w:id" ≠ n.id := by
    intro x hx heq
    exact hnotin2 (by rw [← hattr] at heq
                      exact List.mem_map.mpr ⟨x, hx, heq⟩)
  -- ## the encode pass rewrites exactly the target element
  have hl1enc : encodeList n.id n.html l1 (RelationshipManager.load (some es))
      = (l1, RelationshipManager.load (some es)) := by
    refine encodeList_noMatch n.id n.html l1 _ ?_
    intro en hen
    have hdl1 : XmlNode.descListByTag "w:endnote" l1 = l1 :=
      endnotes_desc l1 (fun x hx => hens x (List.mem_append_left _ hx))
    rw [hdl1] at hen
    exact hne1 en hen
  have hl2enc : encodeList n.id n.html l2 rsF = (l2, rsF) := by
    refine encodeList_noMatch n.id n.html l2 _ ?_
    intro en hen
    have hdl2 : XmlNode.descListByTag "w:endnote" l2 = l2 :=
      endnotes_desc l2 (fun x hx => hens x
        (List.mem_append_right _ (List.mem_cons_of_mem _ hx)))
    rw [hdl2] at hen
    exact hne2 en hen
  have hen0enc : encodeNode n.id n.html (.elem "w:endnote" a0 cs0)
      (RelationshipManager.load (some es))
      = (.elem "w:endnote" a0 cs1, rsF) := by
    rw [encodeNode, if_pos ⟨rfl, hattr⟩]
    exact hrwE
  have hencL : encodeList n.id n.html
      (l1 ++ (XmlNode.elem "w:endnote" a0 cs0) :: l2)
      (RelationshipManager.load (some es))
      = (l1 ++ (XmlNode.elem "w:endnote" a0 cs1) :: l2, rsF) := by
    rw [encodeList_append, hl1enc]
    dsimp only
    rw [encodeList_cons_eq, hen0enc]
    dsimp only
    rw [hl2enc]
  have hencN : encodeNode n.id n.html
      (.elem dt da (l1 ++ (XmlNode.elem "w:endnote" a0 cs0) :: l2))
      (RelationshipManager.load (some es))
      = (.elem dt da (l1 ++ (XmlNode.elem "w:endnote" a0 cs1) :: l2), rsF) := by
    rw [encodeNode, if_neg (fun hh => hdt hh.1), hencL]
  -- ## the persisted relationship file
  have hrels2 : ∃ esF, (match rsF.relsFile with
        | some es2 => some (some es2)
        | none => none) = some (some esF) ∧ esF = rsF.relationships ∧
      (esF.map RelEntry.rId).Nodup := by
    rcases hsync with hsyncL | hsyncR
    · exact ⟨rsF.relationships, by rw [hsyncL], rfl, hndF⟩
    · refine ⟨es, by rw [hsyncR]; rfl, by rw [hsyncR]; rfl, hes⟩
  obtain ⟨esF, hmatch, hesF, hndesF⟩ := hrels2
  have hdict : ∀ e ∈ rsF.relationships,
      pyEndsWith e.relType "/hyperlink" = true →
      dictGet (buildRelDict esF) e.rId "#" = e.target := by
    intro e he hty
    exact dictGet_buildRelDict hndesF (by rw [hesF]; exact he) hty
  -- ## the write call
  have hwr : write_updated_note
      (some ⟨fp, some (some (.elem dt da
        (l1 ++ (XmlNode.elem "w:endnote" a0 cs0) :: l2))), some (some es)⟩)
      n.id n.html
      = .ok (some ⟨fp, some (some (.elem dt da
        (l1 ++ (XmlNode.elem "w:endnote" a0 cs1) :: l2))),
        some (some esF)⟩) := by
    rw [write_updated_note]
    dsimp only
    rw [hencN]
    dsimp only
    rw [hmatch]
  -- ## the second decode
  obtain ⟨m, hm, hmid, hmhtml⟩ := hdec2 (buildRelDict esF) hdict n.id
  obtain ⟨ns1a, nsRest, hL1, hLrest, rfl⟩ :=
    extractLoop_append_split (buildRelDict es) l1
      ((XmlNode.elem "w:endnote" a0 cs0) :: l2) notes0 hL
  have hkeep : (XmlNode.elem "w:endnote" a0 cs0).getAttr "w:id" ≠ "" ∧
      (XmlNode.elem "w:endnote" a0 cs0).getAttr "w:id" ≠ "-1" ∧
      (XmlNode.elem "w:endnote" a0 cs0).getAttr "w:id" ≠ "0" := by
    rw [hattr]
    exact ⟨hnid1, hnid2, hnid3⟩
  rw [extractLoop, if_pos hkeep] at hLrest
  have hLrest2 := hLrest
  rw [hdecode] at hLrest2
  rcases hL2 : extractLoop (buildRelDict es) l2 with e | ns2a
  all_goals try rw [hL2] at hLrest2
  · exact absurd hLrest2 (by simp)
  have hnsRest : nsRest = n :: ns2a := by
    injection hLrest2 with hh
    exact hh.symm
  subst hnsRest
  obtain ⟨ns1b, hL1b, hids1⟩ :=
    extractLoop_indep (buildRelDict es) (buildRelDict esF) l1 ns1a hL1
  obtain ⟨ns2b, hL2b, hids2⟩ :=
    extractLoop_indep (buildRelDict es) (buildRelDict esF) l2 ns2a hL2
  have hkeep2 : (XmlNode.elem "w:endnote" a0 cs1).getAttr "w:id" ≠ "" ∧
      (XmlNode.elem "w:endnote" a0 cs1).getAttr "w:id" ≠ "-1" ∧
      (XmlNode.elem "w:endnote" a0 cs1).getAttr "w:id" ≠ "0" := hkeep
  have hattr2 : (XmlNode.elem "w:endnote" a0 cs1).getAttr "w:id" = n.id :=
    hattr
  have hloopcons : extractLoop (buildRelDict esF)
      ((XmlNode.elem "w:endnote" a0 cs1) :: l2) = .ok (m :: ns2b) := by
    rw [extractLoop, if_pos hkeep2, hattr2, hm, hL2b]
  have hloop2 : extractLoop (buildRelDict esF)
      (l1 ++ (XmlNode.elem "w:endnote" a0 cs1) :: l2)
      = .ok (ns1b ++ m :: ns2b) :=
    extractLoop_append_mk (buildRelDict esF) l1 _ ns1b (m :: ns2b)
      hL1b hloopcons
  have hids : (ns1b ++ m :: ns2b).map NoteRec.id
      = (ns1a ++ n :: ns2a).map NoteRec.id := by
    rw [List.map_append, List.map_append, List.map_cons, List.map_cons,
      hids1, hids2, hmid]
  obtain ⟨notes2, hsort2⟩ := sortNotes_of_ids hids.symm hdec
  have hens2 : ∀ en ∈ l1 ++ (XmlNode.elem "w:endnote" a0 cs1) :: l2,
      ∃ a cs, en = XmlNode.elem "w:endnote" a cs ∧
        XmlNode.descListByTag "w:endnote" cs = [] := by
    intro en hen
    rcases List.mem_append.mp hen with hm1 | hm2
    · exact hens en (List.mem_append_left _ hm1)
    · rcases List.mem_cons.mp hm2 with rfl | hm3
      · exact ⟨a0, cs1, rfl, hcs1⟩
      · exact hens en (List.mem_append_right _ (List.mem_cons_of_mem _ hm3))
  have hext2 : extract_endnotes_xml
      (some ⟨fp, some (some (.elem dt da
        (l1 ++ (XmlNode.elem "w:endnote" a0 cs1) :: l2))),
        some (some esF)⟩) = .ok notes2 := by
    rw [extract_endnotes_xml]
    dsimp only
    rw [if_neg hfp]
    rw [extractCore]
    rw [show XmlNode.descByTag "w:endnote"
        ((.elem dt da (l1 ++ (XmlNode.elem "w:endnote" a0 cs1) :: l2))
          : XmlNode)
        = l1 ++ (XmlNode.elem "w:endnote" a0 cs1) :: l2
        from endnotes_desc _ hens2]
    rw [hloop2]
    exact hsort2
  -- ## the filter isolates the rewritten note
  have hne1b : ∀ x ∈ ns1b, x.id ≠ n.id := by
    intro x hx heq
    have hxid : x.id ∈ ns1b.map NoteRec.id := List.mem_map.mpr ⟨x, hx, rfl⟩
    rw [hids1] at hxid
    rcases List.mem_map.mp hxid with ⟨y, hy, hyid⟩
    obtain ⟨eny, henymem, hya, _⟩ :=
      extractLoop_mem_src (buildRelDict es) l1 ns1a hL1 y hy
    exact hne1 eny henymem (by rw [hya, hyid, heq])
  have hne2b : ∀ x ∈ ns2b, x.id ≠ n.id := by
    intro x hx heq
    have hxid : x.id ∈ ns2b.map NoteRec.id := List.mem_map.mpr ⟨x, hx, rfl⟩
    rw [hids2] at hxid
    rcases List.mem_map.mp hxid with ⟨y, hy, hyid⟩
    obtain ⟨eny, henymem, hya, _⟩ :=
      extractLoop_mem_src (buildRelDict es) l2 ns2a hL2 y hy
    exact hne2 eny henymem (by rw [hya, hyid, heq])
  have hfilterBase : (ns1b ++ m :: ns2b).filter (fun m2 => m2.id == n.id)
      = [m] := by
    rw [List.filter_append, List.filter_cons]
    rw [List.filter_eq_nil_iff.mpr
      (fun x hx => by simpa using hne1b x hx)]
    rw [List.filter_eq_nil_iff.mpr
      (fun x hx => by simpa using hne2b x hx)]
    rw [if_pos (by simpa using hmid)]
    rfl
  have hfilter : notes2.filter (fun m2 => m2.id == n.id) = [m] := by
    have hperm := (sortNotes_perm hsort2).filter (fun m2 => m2.id == n.id)
    rw [hfilterBase] at hperm
    exact List.perm_singleton.mp hperm
  exact ⟨_, notes2, m, hwr, hext2, hfilter, by rw [hmhtml, ← hnEq]⟩


/-- Witness for `round_trip_amended`: a one-note document with note id `2`
and text `Hello`, an empty relationship file, and the note decoded, its
markup re-encoded, and the session decoded again. -/
theorem round_trip_amended_witness :
    ∃ ud2 notes2 m,
      write_updated_note (some ⟨"word/endnotes.xml",
          some (some (.elem "w:endnotes" []
            [.elem "w:endnote" [("w:id", "2")]
              [.elem "w:p" [] [.elem "w:r" []
                [.elem "w:t" [] [.text "Hello"]]]]])),
          some (some [])⟩) "2" "Hello" = .ok (some ud2) ∧
      extract_endnotes_xml (some ud2) = .ok notes2 ∧
      notes2.filter (fun m2 => m2.id == "2") = [m] ∧
      m.html = "Hello" :=
  round_trip_amended "word/endnotes.xml" "w:endnotes" []
    [.elem "w:endnote" [("w:id", "2")]
      [.elem "w:p" [] [.elem "w:r" [] [.elem "w:t" [] [.text "Hello"]]]]]
    [] [⟨"2", "Hello", "Hello"⟩] ⟨"2", "Hello", "Hello"⟩
    (by decide) (by decide)
    (fun en hen => by
      rcases List.mem_singleton.mp hen with rfl
      exact ⟨_, _, rfl, rfl⟩)
    (by decide) (by decide) rfl (by decide)
    (by unfold tokenSafe noEnt; decide)

end SCP
